import Mathlib

/-!
# RangeList: a linked list of half-open integer ranges

A shallow embedding of `src/RangeList.cpp`.

* A `RangeNode` is the record `{begin, end, value}`; the `next` pointer is
  represented by the position of the node in a Lean `List`.
* The chain hanging off `pHead` is a `List RangeNode` (`[]` is `pHead == NULL`).
* C++ `int` is modelled by `Int` with the 32-bit range made explicit: every `+`, `-` and
  `*` of the source is followed by `wrapInt`, the reduction modulo `2^32` into
  `[-2^31, 2^31)` that the arithmetic of the compiled program performs, and `IsInt` says
  that a number is a value of type `int`.
* `new` is assumed to succeed.
* For the copy constructor the nodes are placed in an explicit heap (`Cell`, `Heap`), with
  the pointer code of the constructor, of `get` and of `insert_value` written over it.
-/

namespace RangeList

/-- One node of the chain: `RangeNode(int b, int e, int v)`. The field `end` of the
source is spelled `end_`. -/
structure RangeNode where
  begin : Int
  end_ : Int
  value : Int
deriving DecidableEq, Repr

/-- The result of an `int` operation whose exact value is `x`: `x` reduced modulo `2^32`
into the range `[-2^31, 2^31)`. -/
def wrapInt (x : Int) : Int := (x + 2147483648) % 4294967296 - 2147483648

/-- The number `x` is a value of type `int`: `INT_MIN ≤ x ≤ INT_MAX`. -/
def IsInt (x : Int) : Prop := -2147483648 ≤ x ∧ x ≤ 2147483647

instance (x : Int) : Decidable (IsInt x) := by
  unfold IsInt; infer_instance

/-- The chain owned by a `RangeList`, in link order starting at `pHead`. -/
abbrev Chain := List RangeNode

/-- The default constructor `RangeList::RangeList()`: `pHead(NULL)`. -/
def empty : Chain := []

/-! ## `mergeNodes` -/

/-- The loop of `mergeNodes` with the cursor `current` and the chain `current->next`.
If `current` and its successor have equal values and touch, the successor is absorbed
(`current->end = nextNode->end; current->next = nextNode->next`) and the cursor stays;
otherwise the cursor advances. The result is the chain from `current` on. -/
def mergeFrom (current : RangeNode) : List RangeNode → List RangeNode
  | [] => [current]
  | nextNode :: rest =>
    if current.value = nextNode.value ∧ current.end_ = nextNode.begin then
      mergeFrom { current with end_ := nextNode.end_ } rest
    else
      current :: mergeFrom nextNode rest

/-- `RangeList::mergeNodes(&pHead)`: one pass over the chain from the head. -/
def mergeNodes : Chain → Chain
  | [] => []
  | current :: rest => mergeFrom current rest

/-! ## `get` -/

/-- The `while ((current) && (current->begin != position))` loop of `get`: the value of
`current` when the loop exits (`none` is `NULL`). -/
def getSeek (position : Int) : List RangeNode → Option RangeNode
  | [] => none
  | current :: next =>
    if current.begin ≠ position then getSeek position next else some current

/-- `RangeList::get(int position)`. -/
def get (chain : Chain) (position : Int) : Int :=
  match getSeek position chain with
  | some current => if current.begin = position then current.value else 0
  | none => 0

/-! ## `insert_value` -/

/-- Step 4 and Step 5 of `insert_value`: the `while (indexNode != NULL)` loop and the
append after it. The chain `pHead` is `pre ++ cur`, where `cur` is the chain starting at
`indexNode` and `pre` holds the nodes before it, so that `prevNode` is the last node of
`pre` and `prevNode == NULL` (equivalently `indexNode == pHead`) is `pre = []`.
A link update `prevNode->next = n` or, when `prevNode` is `NULL`, `pHead = n`, makes the
chain `pre ++ n ...` in both cases. The result is the final chain `pHead`; every return
path runs `mergeNodes(&pHead)` first. -/
def insertLoop (value : Int) (newNode : RangeNode) : List RangeNode → List RangeNode → Chain
  | pre, [] =>
    -- Step 5: `if (prevNode != NULL) prevNode->next = newNode;`
    let linked := if pre ≠ [] then pre ++ [newNode] else pre
    -- `if (newNode->value == 0)`: `prevNode->next = newNode->next` or `pHead = newNode->next`,
    -- where `newNode->next` is `NULL`
    let chain := if newNode.value = 0 then pre else linked
    mergeNodes chain
  | pre, indexNode :: rest =>
    if newNode.end_ ≤ indexNode.begin then
      -- S4a: splice `newNode` before `indexNode`
      let linked := pre ++ newNode :: indexNode :: rest
      let chain := if newNode.value = 0 then pre ++ indexNode :: rest else linked
      mergeNodes chain
    else if newNode.begin ≥ indexNode.end_ then
      -- S4b: advance
      insertLoop value newNode (pre ++ [indexNode]) rest
    else
      -- S4c: overlap
      let chain :=
        if newNode.begin ≤ indexNode.begin then
          if newNode.end_ ≥ indexNode.end_ then
            -- overwrite `indexNode` in place
            let indexNode1 : RangeNode := ⟨newNode.begin, newNode.end_, value⟩
            if indexNode1.value = 0 then pre ++ rest
            else pre ++ indexNode1 :: rest
          else if newNode.end_ ≤ indexNode.end_ then
            -- S4d
            if pre ≠ [] then
              -- `indexNode != pHead`
              let splitNode : RangeNode := ⟨newNode.end_, indexNode.end_, indexNode.value⟩
              let indexNode1 : RangeNode := { indexNode with end_ := newNode.begin }
              if splitNode.value = 0 then pre ++ rest
              else pre ++ indexNode1 :: newNode :: splitNode :: rest
            else
              -- `newNode->next = pHead; pHead = newNode; indexNode->begin = newNode->end;`
              newNode :: { indexNode with begin := newNode.end_ } :: rest
          else
            pre ++ indexNode :: rest
        else
          if newNode.end_ > indexNode.end_ then
            -- S4e
            let indexNode1 : RangeNode := { indexNode with end_ := newNode.end_, value := value }
            if indexNode1.value = 0 then pre ++ rest
            else pre ++ indexNode1 :: rest
          else
            -- S4f
            let splitNode : RangeNode := ⟨newNode.end_, indexNode.end_, indexNode.value⟩
            let indexNode1 : RangeNode := { indexNode with end_ := newNode.begin }
            if splitNode.value = 0 then pre ++ rest
            else pre ++ indexNode1 :: newNode :: splitNode :: rest
      mergeNodes chain

/-- `RangeList::insert_value(int position, int value)`: the return code and the chain
`pHead` after the call. The end `position + 1` of the new node is an `int` sum. -/
def insert_value (chain : Chain) (position value : Int) : Int × Chain :=
  -- Step 1
  let newNode : RangeNode := ⟨position, wrapInt (position + 1), value⟩
  -- Step 2: `if (!pHead || position < pHead->begin)`
  match chain with
  | [] => (1, mergeNodes (newNode :: chain))
  | headNode :: _ =>
    if position < headNode.begin then (1, mergeNodes (newNode :: chain))
    else (1, insertLoop value newNode [] chain)

/-- The chain after a sequence of `insert_value(position, value)` calls, applied from
left to right. -/
def insertAll (chain : Chain) (calls : List (Int × Int)) : Chain :=
  calls.foldl (fun c pv => (insert_value c pv.1 pv.2).2) chain

/-! ## `operator*` -/

/-- The `while (current && rhs)` loop of `operator*`: the cursors are the chains starting
at `current` and at `rhs`, and the result is `product` when either cursor is `NULL`. The
differences, products and sums are `int` operations. -/
def operatorMulLoop : List RangeNode → List RangeNode → Int → Int
  | [], _, product => product
  | _ :: _, [], product => product
  | current :: currentNext, rhs :: rhsNext, product =>
    if current.begin = rhs.begin then
      -- S2a
      operatorMulLoop currentNext rhsNext
        (wrapInt (product + wrapInt (current.value * rhs.value)))
    else if current.begin < rhs.begin then
      -- S2b
      if rhs.end_ ≤ current.end_ then
        operatorMulLoop currentNext (rhs :: rhsNext)
          (wrapInt (product + wrapInt (wrapInt (rhs.end_ - rhs.begin) * current.value)))
      else if wrapInt (current.end_ - rhs.begin) > 0 then
        operatorMulLoop currentNext (rhs :: rhsNext)
          (wrapInt (product + wrapInt (wrapInt (current.end_ - rhs.begin) * current.value)))
      else
        operatorMulLoop currentNext (rhs :: rhsNext) product
    else if current.begin > rhs.begin then
      -- S2c
      if rhs.end_ ≥ current.end_ then
        operatorMulLoop (current :: currentNext) rhsNext
          (wrapInt (product + wrapInt (wrapInt (current.end_ - rhs.begin) * current.value)))
      else
        operatorMulLoop (current :: currentNext) rhsNext product
    else
      -- S2d
      operatorMulLoop currentNext rhsNext product
termination_by current rhs => current.length + rhs.length

/-- `RangeList::operator*(RangeList const& rl2)`, with `chain` the chain of `*this`. -/
def operatorMul (chain rl2 : Chain) : Int := operatorMulLoop chain rl2 0

/-! ## The chain in memory

For the copy constructor the nodes are placed in an explicit heap: a `Cell` is a
`RangeNode` together with its `next` pointer, a pointer is an address or `NULL`, and `new`
places the node at the first unused address. `delete` leaves the cell in place, so no
address is used twice. -/

/-- A `RangeNode` in memory: the three fields and `next` (`none` is `NULL`). -/
structure Cell where
  begin : Int
  end_ : Int
  value : Int
  next : Option Nat
deriving DecidableEq, Repr

/-- The memory: the cell at address `a` is the `a`-th entry. -/
abbrev Heap := List Cell

/-- A `RangeNode*`. -/
abbrev Ptr := Option Nat

/-- Reading `*p`. The code dereferences valid pointers only; elsewhere the model reads
a zero cell. -/
def deref (h : Heap) : Ptr → Cell
  | some a => h.getD a ⟨0, 0, 0, none⟩
  | none => ⟨0, 0, 0, none⟩

/-- Writing `*p = c`. -/
def store (h : Heap) : Ptr → Cell → Heap
  | some a, c => h.set a c
  | none, _ => h

/-- The heap after `p->begin = b`. -/
def setBegin (h : Heap) (p : Ptr) (b : Int) : Heap := store h p { deref h p with begin := b }

/-- The heap after `p->end = e`. -/
def setEnd (h : Heap) (p : Ptr) (e : Int) : Heap := store h p { deref h p with end_ := e }

/-- The heap after `p->value = v`. -/
def setValue (h : Heap) (p : Ptr) (v : Int) : Heap := store h p { deref h p with value := v }

/-- The heap after `p->next = q`. -/
def setNext (h : Heap) (p : Ptr) (q : Ptr) : Heap := store h p { deref h p with next := q }

/-- The heap after `new RangeNode(b, e, v)`; the new node is at address `h.length`. -/
def allocNode (h : Heap) (b e v : Int) : Heap := h ++ [⟨b, e, v, none⟩]

/-- The `while (otherNode != NULL)` loop of the copy constructor, run for at most `fuel`
iterations: the heap, `pHead` and `tail` when the loop exits. -/
def copyLoopH : Nat → Heap → Ptr → Ptr → Ptr → Heap × Ptr × Ptr
  | 0, h, _, pHead, tail => (h, pHead, tail)
  | fuel + 1, h, otherNode, pHead, tail =>
    if otherNode ≠ none then
      let newNode : Ptr := some h.length
      let h1 := allocNode h (deref h otherNode).begin (deref h otherNode).end_
        (deref h otherNode).value
      if tail = none then
        copyLoopH fuel h1 (deref h1 otherNode).next newNode newNode
      else
        let h2 := setNext h1 tail newNode
        copyLoopH fuel h2 (deref h2 otherNode).next pHead newNode
    else (h, pHead, tail)

/-- `RangeList::RangeList(const RangeList& other)` for `other.pHead = other`: the heap
after construction and the `pHead` of the new list. -/
def copyCtorH (fuel : Nat) (h : Heap) (other : Ptr) : Heap × Ptr :=
  let r := copyLoopH fuel h other none none
  -- `if (tail != NULL) tail->next = NULL;`
  if r.2.2 ≠ none then (setNext r.1 r.2.2 none, r.2.1) else (r.1, r.2.1)

/-- The loop of `mergeNodes(&pHead)` on the heap, run for at most `fuel` iterations: the
heap and `*ppHead` when the loop exits. -/
def mergeLoopH : Nat → Heap → Ptr → Ptr → Heap × Ptr
  | 0, h, pHead, _ => (h, pHead)
  | fuel + 1, h, pHead, current =>
    if current ≠ none ∧ (deref h current).next ≠ none then
      if (deref h current).value = (deref h (deref h current).next).value ∧
          (deref h current).end_ = (deref h (deref h current).next).begin then
        let nextNode := (deref h current).next
        let h1 := setEnd h current (deref h nextNode).end_
        let h2 := setNext h1 current (deref h1 nextNode).next
        let pHead1 := if pHead = nextNode then current else pHead
        mergeLoopH fuel h2 pHead1 current
      else
        mergeLoopH fuel h pHead (deref h current).next
    else (h, pHead)

/-- `mergeNodes(&pHead)` on the heap. -/
def mergeNodesH (fuel : Nat) (h : Heap) (pHead : Ptr) : Heap × Ptr :=
  mergeLoopH fuel h pHead pHead

/-- The recurring `if (prevNode != NULL) prevNode->next = x->next; else pHead = x->next;`
of `insert_value`. -/
def unlinkH (h : Heap) (pHead prevNode x : Ptr) : Heap × Ptr :=
  if prevNode ≠ none then (setNext h prevNode (deref h x).next, pHead)
  else (h, (deref h x).next)

/-- Step 4 and Step 5 of `insert_value` on the heap, the loop run for at most `fuel`
iterations and the loop of `mergeNodes` for at most `mfuel`. -/
def insertLoopH (value : Int) (newNode : Ptr) (mfuel : Nat) :
    Nat → Heap → Ptr → Ptr → Ptr → Heap × Ptr
  | 0, h, pHead, _, _ => (h, pHead)
  | fuel + 1, h, pHead, indexNode, prevNode =>
    if indexNode ≠ none then
      if (deref h newNode).end_ ≤ (deref h indexNode).begin then
        -- S4a
        let h1 := setNext h newNode indexNode
        let s1 : Heap × Ptr :=
          if prevNode ≠ none then (setNext h1 prevNode newNode, pHead) else (h1, newNode)
        let s2 := if (deref s1.1 newNode).value = 0 then unlinkH s1.1 s1.2 prevNode newNode
          else s1
        mergeNodesH mfuel s2.1 s2.2
      else if (deref h newNode).begin ≥ (deref h indexNode).end_ then
        -- S4b
        insertLoopH value newNode mfuel fuel h pHead (deref h indexNode).next indexNode
      else
        -- S4c
        let s : Heap × Ptr :=
          if (deref h newNode).begin ≤ (deref h indexNode).begin then
            if (deref h newNode).end_ ≥ (deref h indexNode).end_ then
              let h1 := setBegin h indexNode (deref h newNode).begin
              let h2 := setEnd h1 indexNode (deref h1 newNode).end_
              let h3 := setValue h2 indexNode value
              if (deref h3 indexNode).value = 0 then unlinkH h3 pHead prevNode indexNode
              else (h3, pHead)
            else if (deref h newNode).end_ ≤ (deref h indexNode).end_ then
              -- S4d
              if indexNode ≠ pHead then
                let splitNode : Ptr := some h.length
                let h1 := allocNode h (deref h newNode).end_ (deref h indexNode).end_
                  (deref h indexNode).value
                let h2 := setNext h1 splitNode (deref h1 indexNode).next
                let h3 := setEnd h2 indexNode (deref h2 newNode).begin
                let h4 := setNext h3 indexNode newNode
                let h5 := setNext h4 newNode splitNode
                if (deref h5 splitNode).value = 0 then unlinkH h5 pHead prevNode splitNode
                else (h5, pHead)
              else
                let h1 := setNext h newNode pHead
                let h2 := setBegin h1 indexNode (deref h1 newNode).end_
                (h2, newNode)
            else (h, pHead)
          else
            if (deref h newNode).end_ > (deref h indexNode).end_ then
              -- S4e
              let h1 := setEnd h indexNode (deref h newNode).end_
              let h2 := setValue h1 indexNode value
              if (deref h2 indexNode).value = 0 then unlinkH h2 pHead prevNode indexNode
              else (h2, pHead)
            else
              -- S4f
              let splitNode : Ptr := some h.length
              let h1 := allocNode h (deref h newNode).end_ (deref h indexNode).end_
                (deref h indexNode).value
              let h2 := setNext h1 splitNode (deref h1 indexNode).next
              let h3 := setEnd h2 indexNode (deref h2 newNode).begin
              let h4 := setNext h3 indexNode newNode
              let h5 := setNext h4 newNode splitNode
              if (deref h5 splitNode).value = 0 then unlinkH h5 pHead prevNode splitNode
              else (h5, pHead)
        mergeNodesH mfuel s.1 s.2
    else
      -- Step 5
      let h1 := if prevNode ≠ none then setNext h prevNode newNode else h
      let s := if (deref h1 newNode).value = 0 then unlinkH h1 pHead prevNode newNode
        else (h1, pHead)
      mergeNodesH mfuel s.1 s.2

/-- `RangeList::insert_value(int position, int value)` on the heap, for the list whose
head pointer is `pHead`: the heap and `pHead` after the call. Every loop is run for at
most `fuel` iterations. -/
def insertValueH (fuel : Nat) (h : Heap) (pHead : Ptr) (position value : Int) : Heap × Ptr :=
  -- Step 1
  let newNode : Ptr := some h.length
  let h1 := allocNode h position (wrapInt (position + 1)) value
  -- Step 2
  if pHead = none ∨ position < (deref h1 pHead).begin then
    let h2 := setNext h1 newNode pHead
    mergeNodesH fuel h2 newNode
  else
    insertLoopH value newNode fuel fuel h1 pHead pHead none

/-- The heap and `pHead` after a sequence of `insert_value` calls on the list at `pHead`. -/
def insertAllH (fuel : Nat) (h : Heap) (pHead : Ptr) (calls : List (Int × Int)) : Heap × Ptr :=
  calls.foldl (fun s pv => insertValueH fuel s.1 s.2 pv.1 pv.2) (h, pHead)

/-- The `while ((current) && (current->begin != position))` loop of `get` on the heap, run
for at most `fuel` iterations: `current` when the loop exits. -/
def getLoopH (position : Int) : Nat → Heap → Ptr → Ptr
  | 0, _, current => current
  | fuel + 1, h, current =>
    if current ≠ none ∧ (deref h current).begin ≠ position then
      getLoopH position fuel h (deref h current).next
    else current

/-- `RangeList::get(int position)` on the heap, for the list whose head pointer is
`pHead`. -/
def getH (fuel : Nat) (h : Heap) (pHead : Ptr) (position : Int) : Int :=
  let current := getLoopH position fuel h pHead
  if current ≠ none ∧ (deref h current).begin = position then (deref h current).value else 0

/-- The heap `h` holds the chain `l` at `p`: following `next` from `p` visits cells with
the fields of the nodes of `l` in order and ends at `NULL`. -/
def Linked (h : Heap) : Ptr → List RangeNode → Prop
  | p, [] => p = none
  | p, n :: rest => ∃ a c, p = some a ∧ h[a]? = some c ∧
      c.begin = n.begin ∧ c.end_ = n.end_ ∧ c.value = n.value ∧ Linked h c.next rest

/-- No cell of the heap points past the end of the heap. -/
def WellFormed (h : Heap) : Prop := ∀ c ∈ h, ∀ x ∈ c.next, x < h.length

/-- The chain read off the heap from `p`, following at most `fuel` links. -/
def chainOfH : Nat → Heap → Ptr → List RangeNode
  | 0, _, _ => []
  | _ + 1, _, none => []
  | fuel + 1, h, some a =>
    ⟨(deref h (some a)).begin, (deref h (some a)).end_, (deref h (some a)).value⟩ ::
      chainOfH fuel h (deref h (some a)).next

/-! ## The data model of the specification -/

/-- Position `q` lies in the half-open range `[begin, end)` of node `n`. -/
def covers (n : RangeNode) (q : Int) : Prop := n.begin ≤ q ∧ q < n.end_

instance (n : RangeNode) (q : Int) : Decidable (covers n q) := by
  unfold covers; infer_instance

/-- The effective value of a chain at position `q`: the value of the stored interval with
`begin ≤ q < end`, or `0` if there is none. -/
def effective (chain : Chain) (q : Int) : Int :=
  match chain.find? (fun n => decide (covers n q)) with
  | some n => n.value
  | none => 0

/-- Every stored interval has `begin < end`. -/
def NonEmptyRanges (chain : Chain) : Prop := ∀ n ∈ chain, n.begin < n.end_

/-- Consecutive intervals `i`, `j` of the chain satisfy `i.end ≤ j.begin`. -/
def Ascending (chain : Chain) : Prop := chain.Chain' (fun i j => i.end_ ≤ j.begin)

/-- No two consecutive intervals have equal values and touch. -/
def Coalesced (chain : Chain) : Prop :=
  chain.Chain' (fun i j => ¬ (i.value = j.value ∧ i.end_ = j.begin))

/-- No stored interval has value `0`. -/
def NoZero (chain : Chain) : Prop := ∀ n ∈ chain, n.value ≠ 0

/-- The four structural invariants of the data model. -/
def Invariants (chain : Chain) : Prop :=
  NonEmptyRanges chain ∧ Ascending chain ∧ Coalesced chain ∧ NoZero chain

instance (chain : Chain) : Decidable (NonEmptyRanges chain) := by
  unfold NonEmptyRanges; infer_instance

instance (chain : Chain) : Decidable (Ascending chain) := by
  unfold Ascending; infer_instance

instance (chain : Chain) : Decidable (Coalesced chain) := by
  unfold Coalesced; infer_instance

instance (chain : Chain) : Decidable (NoZero chain) := by
  unfold NoZero; infer_instance

instance (chain : Chain) : Decidable (Invariants chain) := by
  unfold Invariants; infer_instance

/-- Every field of every node of the chain is a value of type `int`. -/
def IntChain (chain : Chain) : Prop :=
  ∀ n ∈ chain, IsInt n.begin ∧ IsInt n.end_ ∧ IsInt n.value

instance (chain : Chain) : Decidable (IntChain chain) := by
  unfold IntChain; infer_instance

/-- The exact-begin lookup in the words of the specification: the value of the first
interval in chain order whose `begin` equals `position`, and `0` when there is none. -/
def lookupBegin (chain : Chain) (position : Int) : Int :=
  match chain.find? (fun n => decide (n.begin = position)) with
  | some n => n.value
  | none => 0

/-- Every interval of the chain has `end == begin + 1`. -/
def UnitWidth (chain : Chain) : Prop := ∀ n ∈ chain, n.end_ = n.begin + 1

/-- The begins of the chain are strictly ascending. -/
def StrictBegins (chain : Chain) : Prop := chain.Pairwise (fun i j => i.begin < j.begin)

instance (chain : Chain) : Decidable (UnitWidth chain) := by
  unfold UnitWidth; infer_instance

instance (chain : Chain) : Decidable (StrictBegins chain) := by
  unfold StrictBegins; infer_instance

/-- The positions that are the begin of an interval of the chain. -/
def begins (chain : Chain) : Finset Int := (chain.map (fun n => n.begin)).toFinset

/-- The sparse dot product in the words of the specification: the sum, over the positions
`p` that are the begin of an interval in both chains, of the value of `A` at `p` times
the value of `B` at `p`. -/
def sparseDot (A B : Chain) : Int := ∑ p ∈ begins A ∩ begins B, get A p * get B p

/-! ## Proof devices -/

/-- The chain from `indexNode` on, as `insertLoop` leaves it just before the closing
`mergeNodes(&pHead)`; `atHead` records `prevNode == NULL`. The nodes before `indexNode`
are not touched by the loop, see `insertLoop_eq`. -/
def spliceFrom (value : Int) (newNode : RangeNode) : Bool → List RangeNode → List RangeNode
  | atHead, [] =>
    if newNode.value = 0 then [] else if atHead then [] else [newNode]
  | atHead, indexNode :: rest =>
    if newNode.end_ ≤ indexNode.begin then
      if newNode.value = 0 then indexNode :: rest else newNode :: indexNode :: rest
    else if newNode.begin ≥ indexNode.end_ then
      indexNode :: spliceFrom value newNode false rest
    else if newNode.begin ≤ indexNode.begin then
      if newNode.end_ ≥ indexNode.end_ then
        if value = 0 then rest else ⟨newNode.begin, newNode.end_, value⟩ :: rest
      else if newNode.end_ ≤ indexNode.end_ then
        if atHead then newNode :: { indexNode with begin := newNode.end_ } :: rest
        else if indexNode.value = 0 then rest
        else { indexNode with end_ := newNode.begin } :: newNode ::
          ⟨newNode.end_, indexNode.end_, indexNode.value⟩ :: rest
      else indexNode :: rest
    else if newNode.end_ > indexNode.end_ then
      if value = 0 then rest
      else { indexNode with end_ := newNode.end_, value := value } :: rest
    else if indexNode.value = 0 then rest
    else { indexNode with end_ := newNode.begin } :: newNode ::
      ⟨newNode.end_, indexNode.end_, indexNode.value⟩ :: rest

/-- The chain `pHead` as `insert_value` leaves it just before the closing
`mergeNodes(&pHead)` of the return path taken, see `insert_value_eq`. -/
def spliceValue (chain : Chain) (position value : Int) : Chain :=
  match chain with
  | [] => [⟨position, wrapInt (position + 1), value⟩]
  | headNode :: _ =>
    if position < headNode.begin then ⟨position, wrapInt (position + 1), value⟩ :: chain
    else spliceFrom value ⟨position, wrapInt (position + 1), value⟩ true chain

/-- The chain is weakly ordered above `lo`: every node has `begin ≤ end`, the first
begins at or after `lo`, and each node begins at or after the end of its predecessor. -/
def SortedFrom : Int → List RangeNode → Prop
  | _, [] => True
  | lo, n :: rest => lo ≤ n.begin ∧ n.begin ≤ n.end_ ∧ SortedFrom n.end_ rest

/-- Pointer `p` does not point into the address range `[n0, n1)`. -/
def OutPtr (n0 n1 : Nat) (p : Ptr) : Prop := ∀ x ∈ p, ¬ (n0 ≤ x ∧ x < n1)

/-- Heap `h` keeps the cells of `hB` at the addresses `[n0, n1)`, extends beyond `n1`, and
no cell outside `[n0, n1)` points into it. -/
def Frame (n0 n1 : Nat) (hB h : Heap) : Prop :=
  n1 ≤ h.length ∧ (∀ x, n0 ≤ x → x < n1 → h[x]? = hB[x]?) ∧
    (∀ x c, h[x]? = some c → ¬ (n0 ≤ x ∧ x < n1) → OutPtr n0 n1 c.next)

/-- A list state (heap and head pointer) outside `[n0, n1)`. -/
def Good (n0 n1 : Nat) (hB : Heap) (s : Heap × Ptr) : Prop :=
  Frame n0 n1 hB s.1 ∧ OutPtr n0 n1 s.2

/-- The cells of a chain `l` laid out at consecutive addresses from `n0`, each pointing to
the next address and the last to `NULL`, are found in `h`. -/
def CellsAt (n0 : Nat) (l : List RangeNode) (h : Heap) : Prop :=
  ∀ i n, l[i]? = some n →
    h[n0 + i]? = some ⟨n.begin, n.end_, n.value,
      if i + 1 < l.length then some (n0 + i + 1) else none⟩

/-- The address of the first of `l.length` consecutive nodes from `n0`, `NULL` for none. -/
def headPtr (n0 : Nat) (l : List RangeNode) : Ptr := if l = [] then none else some n0

/-- The address of the last of `l.length` consecutive nodes from `n0`, `NULL` for none. -/
def tailPtr (n0 : Nat) (l : List RangeNode) : Ptr :=
  if l = [] then none else some (n0 + l.length - 1)

/-! ## Lemmas -/

theorem wrapInt_of_isInt {x : Int} (h : IsInt x) : wrapInt x = x := by
  unfold IsInt at h
  unfold wrapInt
  omega

theorem isInt_wrapInt (x : Int) : IsInt (wrapInt x) := by
  unfold IsInt wrapInt
  omega

theorem wrapInt_succ {p : Int} (hp : IsInt p) (hmax : p < 2147483647) :
    wrapInt (p + 1) = p + 1 := by
  unfold IsInt at hp
  unfold wrapInt
  omega

theorem wrapInt_add_left (x y : Int) : wrapInt (wrapInt x + y) = wrapInt (x + y) := by
  unfold wrapInt
  omega

theorem wrapInt_add_right (x y : Int) : wrapInt (x + wrapInt y) = wrapInt (x + y) := by
  unfold wrapInt
  omega

theorem insertLoop_eq (value : Int) (newNode : RangeNode) (cur pre : List RangeNode) :
    insertLoop value newNode pre cur
      = mergeNodes (pre ++ spliceFrom value newNode (decide (pre = [])) cur) := by
  induction cur generalizing pre with
  | nil =>
    by_cases hp : pre = [] <;> by_cases hv : newNode.value = 0 <;>
      simp [insertLoop, spliceFrom, hp, hv]
  | cons indexNode rest ih =>
    unfold insertLoop spliceFrom
    by_cases h1 : newNode.end_ ≤ indexNode.begin
    · by_cases hv : newNode.value = 0 <;> simp [h1, hv]
    · by_cases h2 : newNode.begin ≥ indexNode.end_
      · simp only [h1, h2, if_true, if_false]
        rw [ih]
        simp
      · simp only [h1, h2, if_false]
        congr 1
        by_cases hp : pre = [] <;> by_cases hv : value = 0 <;>
          by_cases hi : indexNode.value = 0 <;>
          by_cases h3 : newNode.begin ≤ indexNode.begin <;>
          by_cases h4 : newNode.end_ ≥ indexNode.end_ <;>
          by_cases h5 : newNode.end_ ≤ indexNode.end_ <;>
          by_cases h6 : newNode.end_ > indexNode.end_ <;>
          simp [hp, hv, hi, h3, h4, h5, h6]

theorem insert_value_eq (chain : Chain) (position value : Int) :
    insert_value chain position value = (1, mergeNodes (spliceValue chain position value)) := by
  cases chain with
  | nil => rfl
  | cons headNode rest =>
    by_cases h : position < headNode.begin
    · simp only [insert_value, spliceValue, h, if_true]
    · simp only [insert_value, spliceValue, h, if_false, insertLoop_eq]
      simp

theorem SortedFrom.mono {lo lo1 : Int} {l : List RangeNode} (h : SortedFrom lo l)
    (hle : lo1 ≤ lo) : SortedFrom lo1 l := by
  cases l with
  | nil => trivial
  | cons n rest => exact ⟨le_trans hle h.1, h.2.1, h.2.2⟩

theorem spliceFrom_sorted (p v : Int) (cur : List RangeNode) (atHead : Bool) (lo : Int)
    (hlo : lo ≤ p) (h : SortedFrom lo cur) :
    SortedFrom lo (spliceFrom v ⟨p, p + 1, v⟩ atHead cur) := by
  induction cur generalizing atHead lo with
  | nil =>
    unfold spliceFrom
    split_ifs <;> simp [SortedFrom, hlo]
  | cons indexNode rest ih =>
    obtain ⟨h1, h2, h3⟩ := h
    have hr : ∀ b : Int, b ≤ indexNode.end_ → SortedFrom b rest := fun b hb => h3.mono hb
    unfold spliceFrom
    simp only []
    split_ifs <;>
      first
      | (refine ⟨h1, h2, ih false indexNode.end_ (by omega) h3⟩)
      | (apply hr; omega)
      | (simp only [SortedFrom]
         refine ⟨by omega, by omega, ?_⟩
         first
         | (apply hr; omega)
         | (refine ⟨by omega, by omega, ?_⟩
            first
            | (apply hr; omega)
            | (refine ⟨by omega, by omega, ?_⟩
               apply hr; omega)))

theorem spliceValue_sorted (chain : Chain) (p v : Int) (hw : wrapInt (p + 1) = p + 1)
    (h : ∃ lo, SortedFrom lo chain) :
    ∃ lo, SortedFrom lo (spliceValue chain p v) := by
  obtain ⟨lo, h⟩ := h
  cases chain with
  | nil => exact ⟨p, by simp [spliceValue, SortedFrom, hw]⟩
  | cons headNode rest =>
    unfold spliceValue
    rw [hw]
    by_cases hp : p < headNode.begin
    · simp only [hp, if_true]
      exact ⟨p, le_refl p, by show p ≤ p + 1; omega, by show p + 1 ≤ headNode.begin; omega,
        h.2.1, h.2.2⟩
    · simp only [hp, if_false]
      exact ⟨headNode.begin, spliceFrom_sorted p v _ true _ (by omega)
        ⟨le_refl _, h.2.1, h.2.2⟩⟩

theorem SortedFrom.bounds {lo : Int} {l : List RangeNode} (h : SortedFrom lo l) :
    ∀ n ∈ l, lo ≤ n.begin ∧ n.begin ≤ n.end_ := by
  induction l generalizing lo with
  | nil => intro n hn; cases hn
  | cons m rest ih =>
    intro n hn
    rcases List.mem_cons.mp hn with rfl | hn
    · exact ⟨h.1, h.2.1⟩
    · have := ih h.2.2 n hn
      have := h.1
      have := h.2.1
      omega

theorem effective_nil (q : Int) : effective [] q = 0 := rfl

theorem effective_cons (n : RangeNode) (l : List RangeNode) (q : Int) :
    effective (n :: l) q = if n.begin ≤ q ∧ q < n.end_ then n.value else effective l q := by
  by_cases h : n.begin ≤ q ∧ q < n.end_
  · simp [effective, covers, h]
  · simp [effective, covers, h]

theorem effective_below {lo : Int} {l : List RangeNode} (h : SortedFrom lo l) (q : Int)
    (hq : q < lo) : effective l q = 0 := by
  induction l generalizing lo with
  | nil => rfl
  | cons n rest ih =>
    have h1 := h.1
    have h2 := h.2.1
    rw [effective_cons, ih h.2.2 (by omega)]
    have : ¬ (n.begin ≤ q ∧ q < n.end_) := by omega
    simp only [this, if_false]

theorem effective_mergeFrom (rest : List RangeNode) (current : RangeNode) (lo q : Int)
    (h : SortedFrom lo (current :: rest)) :
    effective (mergeFrom current rest) q = effective (current :: rest) q := by
  induction rest generalizing current lo with
  | nil => rfl
  | cons nextNode rest ih =>
    obtain ⟨h1, h2, h3, h4, h5⟩ := h
    unfold mergeFrom
    by_cases hm : current.value = nextNode.value ∧ current.end_ = nextNode.begin
    · have hs : SortedFrom lo (⟨current.begin, nextNode.end_, current.value⟩ :: rest) :=
        ⟨h1, by show current.begin ≤ nextNode.end_; omega, h5⟩
      rw [if_pos hm, ih _ lo hs]
      simp only [effective_cons]
      obtain ⟨hv, he⟩ := hm
      split_ifs <;> first | rfl | omega
    · simp only [hm, if_false]
      rw [effective_cons, ih nextNode current.end_ ⟨h3, h4, h5⟩, effective_cons current]

theorem effective_mergeNodes (chain : Chain) (lo q : Int) (h : SortedFrom lo chain) :
    effective (mergeNodes chain) q = effective chain q := by
  cases chain with
  | nil => rfl
  | cons current rest => exact effective_mergeFrom rest current lo q h

theorem effective_spliceFrom (p v q : Int) (cur : List RangeNode) (atHead : Bool) (lo : Int)
    (hlo : lo ≤ p) (h : SortedFrom lo cur) (hz : NoZero cur)
    (hne : atHead = true → cur ≠ []) :
    effective (spliceFrom v ⟨p, p + 1, v⟩ atHead cur) q
      = if q = p then v else effective cur q := by
  induction cur generalizing atHead lo with
  | nil =>
    cases atHead with
    | true => exact absurd rfl (hne rfl)
    | false =>
      unfold spliceFrom
      simp only [effective_cons, effective_nil, Bool.false_eq_true, if_false]
      split_ifs <;> (try simp only [effective_cons, effective_nil]) <;> (try split_ifs) <;>
        omega
  | cons indexNode rest ih =>
    obtain ⟨h1, h2, h3⟩ := h
    have hzi : indexNode.value ≠ 0 := hz indexNode (List.mem_cons_self _ _)
    have hzr : NoZero rest := fun n hn => hz n (List.mem_cons_of_mem _ hn)
    have hih := ih false indexNode.end_
    have hbelow : ∀ x : Int, x < indexNode.end_ → effective rest x = 0 :=
      fun x hx => effective_below h3 x hx
    have hbp := hbelow p
    have hbq := hbelow q
    unfold spliceFrom
    simp only []
    by_cases hb : p ≥ indexNode.end_
    · have hrec := hih hb h3 hzr (fun hf => by cases hf)
      have hna : ¬ (p + 1 ≤ indexNode.begin) := by omega
      simp only [hna, hb, if_true, if_false, effective_cons, hrec]
      split_ifs <;> first | rfl | omega
    · simp only [hb, if_false, effective_cons]
      split_ifs <;> (try simp only [effective_cons]) <;> (try split_ifs) <;>
        first | rfl | omega

theorem SortedFrom.of_invariants (l : List RangeNode) (hn : NonEmptyRanges l)
    (ha : Ascending l) : ∃ lo, SortedFrom lo l := by
  induction l with
  | nil => exact ⟨0, trivial⟩
  | cons m rest ih =>
    have hm : m.begin < m.end_ := hn m (List.mem_cons_self _ _)
    have hr : NonEmptyRanges rest := fun n h => hn n (List.mem_cons_of_mem _ h)
    cases rest with
    | nil => exact ⟨m.begin, le_refl _, le_of_lt hm, trivial⟩
    | cons k rest =>
      have hc := List.chain'_cons.mp ha
      obtain ⟨lo, hs⟩ := ih hr hc.2
      exact ⟨m.begin, le_refl _, le_of_lt hm, hc.1, hs.2.1, hs.2.2⟩

theorem effective_spliceValue (chain : Chain) (p v q : Int) (lo : Int)
    (hw : wrapInt (p + 1) = p + 1)
    (h : SortedFrom lo chain) (hz : NoZero chain) :
    effective (spliceValue chain p v) q = if q = p then v else effective chain q := by
  cases chain with
  | nil =>
    simp only [spliceValue, effective_cons, effective_nil, hw]
    split_ifs <;> omega
  | cons headNode rest =>
    unfold spliceValue
    rw [hw]
    by_cases hp : p < headNode.begin
    · have hs : SortedFrom headNode.begin (headNode :: rest) := ⟨le_refl _, h.2.1, h.2.2⟩
      have hb : effective (headNode :: rest) p = 0 := effective_below hs p hp
      simp only [hp, if_true]
      rw [effective_cons]
      simp only []
      split_ifs <;> first | rfl | omega
    · simp only [hp, if_false]
      exact effective_spliceFrom p v q _ true headNode.begin (by omega)
        ⟨le_refl _, h.2.1, h.2.2⟩ hz (fun _ => List.cons_ne_nil _ _)

theorem insert_value_snd (chain : Chain) (position value : Int) :
    ∃ raw : Chain, (insert_value chain position value).2 = mergeNodes raw := by
  cases chain with
  | nil => exact ⟨[⟨position, wrapInt (position + 1), value⟩], rfl⟩
  | cons headNode rest =>
    by_cases h : position < headNode.begin
    · simp only [insert_value, h, if_true]; exact ⟨_, rfl⟩
    · simp only [insert_value, h, if_false, insertLoop_eq]; exact ⟨_, rfl⟩

theorem mergeFrom_head (rest : List RangeNode) (current : RangeNode) :
    ∃ e tail, mergeFrom current rest = ⟨current.begin, e, current.value⟩ :: tail := by
  induction rest generalizing current with
  | nil => exact ⟨current.end_, [], rfl⟩
  | cons nextNode rest ih =>
    unfold mergeFrom
    by_cases h : current.value = nextNode.value ∧ current.end_ = nextNode.begin
    · simp only [h, and_self, if_true]
      exact ih _
    · simp only [h, if_false]
      exact ⟨current.end_, _, rfl⟩

theorem mergeFrom_coalesced (rest : List RangeNode) (current : RangeNode) :
    Coalesced (mergeFrom current rest) := by
  induction rest generalizing current with
  | nil => simp [mergeFrom, Coalesced]
  | cons nextNode rest ih =>
    unfold mergeFrom
    by_cases h : current.value = nextNode.value ∧ current.end_ = nextNode.begin
    · simp only [h, and_self, if_true]
      exact ih _
    · simp only [h, if_false]
      obtain ⟨e, tail, ht⟩ := mergeFrom_head rest nextNode
      have hc := ih nextNode
      unfold Coalesced at hc ⊢
      rw [ht] at hc ⊢
      exact List.Chain'.cons h hc

theorem mergeNodes_coalesced (chain : Chain) : Coalesced (mergeNodes chain) := by
  cases chain with
  | nil => simp [mergeNodes, Coalesced]
  | cons current rest => exact mergeFrom_coalesced rest current

theorem get_eq_lookupBegin (chain : Chain) (position : Int) :
    get chain position = lookupBegin chain position := by
  induction chain with
  | nil => rfl
  | cons current next ih =>
    by_cases h : current.begin = position
    · simp [get, getSeek, lookupBegin, h]
    · have h2 : get (current :: next) position = get next position := by
        simp [get, getSeek, h]
      have h3 : lookupBegin (current :: next) position = lookupBegin next position := by
        simp [lookupBegin, h]
      rw [h2, h3, ih]

theorem get_cons (m : RangeNode) (rest : List RangeNode) (p : Int) :
    get (m :: rest) p = if m.begin = p then m.value else get rest p := by
  by_cases h : m.begin = p <;> simp [get, getSeek, h]

theorem get_below {lo : Int} {l : List RangeNode} (h : SortedFrom lo l) (p : Int)
    (hp : p < lo) : get l p = 0 := by
  induction l generalizing lo with
  | nil => rfl
  | cons m rest ih =>
    have h1 := h.1
    have h2 := h.2.1
    have hne : ¬ m.begin = p := by omega
    rw [get_cons, if_neg hne]
    exact ih h.2.2 (by omega)

theorem get_inside {lo : Int} {l : List RangeNode} (h : SortedFrom lo l) (p : Int)
    (hp : ∃ n ∈ l, n.begin < p ∧ p < n.end_) : get l p = 0 := by
  induction l generalizing lo with
  | nil =>
    obtain ⟨n, hn, _⟩ := hp
    cases hn
  | cons m rest ih =>
    obtain ⟨n, hn, hb, he⟩ := hp
    rcases List.mem_cons.mp hn with rfl | hn
    · have hne : ¬ n.begin = p := by omega
      rw [get_cons, if_neg hne]
      exact get_below h.2.2 p he
    · have hbn := h.2.2.bounds n hn
      have h1 := h.2.1
      have hne : ¬ m.begin = p := by omega
      rw [get_cons, if_neg hne]
      exact ih h.2.2 ⟨n, hn, hb, he⟩

theorem mergeFrom_of_coalesced (rest : List RangeNode) (current : RangeNode)
    (h : Coalesced (current :: rest)) : mergeFrom current rest = current :: rest := by
  induction rest generalizing current with
  | nil => rfl
  | cons nextNode rest ih =>
    have hc := List.chain'_cons.mp h
    rw [mergeFrom, if_neg hc.1, ih nextNode hc.2]

theorem spliceFrom_overlap_restores (p v : Int) (atHead : Bool) (indexNode : RangeNode)
    (rest : List RangeNode) (hcov : covers indexNode p) (hval : indexNode.value = v)
    (hv : v ≠ 0) (hc : Coalesced (indexNode :: rest)) :
    ∃ y ys, spliceFrom v ⟨p, p + 1, v⟩ atHead (indexNode :: rest) = y :: ys ∧
      y.begin = indexNode.begin ∧ y.value = indexNode.value ∧
      mergeFrom y ys = indexNode :: rest := by
  obtain ⟨b, e, w⟩ := indexNode
  simp only [covers] at hcov
  simp only at hval
  subst hval
  have hm := mergeFrom_of_coalesced rest _ hc
  unfold spliceFrom
  simp only []
  have h1 : ¬ (p + 1 ≤ b) := by omega
  have h2 : ¬ (p ≥ e) := by omega
  simp only [h1, h2, if_false, hv]
  by_cases h3 : p ≤ b
  · have hb : b = p := by omega
    subst hb
    by_cases h4 : b + 1 ≥ e
    · have he : e = b + 1 := by omega
      subst he
      simp only [h3, h4, if_true]
      exact ⟨_, _, rfl, rfl, rfl, hm⟩
    · have h5 : b + 1 ≤ e := by omega
      simp only [h3, h4, h5, if_true, if_false]
      cases atHead with
      | true =>
        simp only [if_true]
        refine ⟨_, _, rfl, rfl, rfl, ?_⟩
        simp [mergeFrom, hm]
      | false =>
        simp only [Bool.false_eq_true, if_false]
        refine ⟨_, _, rfl, rfl, rfl, ?_⟩
        simp [mergeFrom, hm]
  · have h6 : ¬ (p + 1 > e) := by omega
    simp only [h3, h6, if_false]
    refine ⟨_, _, rfl, rfl, rfl, ?_⟩
    by_cases h7 : p + 1 = e
    · subst h7
      simp [mergeFrom, hm]
    · simp [mergeFrom, hm]

theorem spliceFrom_restores (p v : Int) (l : List RangeNode) (atHead : Bool) (lo : Int)
    (hs : SortedFrom lo l) (hc : Coalesced l) (hz : NoZero l)
    (hp : ∃ n ∈ l, covers n p ∧ n.value = v) :
    ∃ y ys, spliceFrom v ⟨p, p + 1, v⟩ atHead l = y :: ys ∧
      (∀ h ∈ l.head?, y.begin = h.begin ∧ y.value = h.value) ∧ mergeFrom y ys = l := by
  induction l generalizing atHead lo with
  | nil =>
    obtain ⟨n, hn, _⟩ := hp
    cases hn
  | cons indexNode rest ih =>
    obtain ⟨n, hn, hcov, hval⟩ := hp
    have hzr : NoZero rest := fun m hm => hz m (List.mem_cons_of_mem _ hm)
    by_cases hi : covers indexNode p
    · have hni : n = indexNode := by
        rcases List.mem_cons.mp hn with h | h
        · exact h
        · have hb := hs.2.2.bounds n h
          unfold covers at hi hcov
          omega
      subst hni
      have hv : v ≠ 0 := hval ▸ hz n (List.mem_cons_self _ _)
      obtain ⟨y, ys, h1, h2, h3, h4⟩ :=
        spliceFrom_overlap_restores p v atHead n rest hi hval hv hc
      refine ⟨y, ys, h1, ?_, h4⟩
      intro h hh
      simp only [List.head?_cons, Option.mem_def, Option.some.injEq] at hh
      subst hh
      exact ⟨h2, h3⟩
    · have hnr : n ∈ rest := by
        rcases List.mem_cons.mp hn with h | h
        · exact absurd (h ▸ hcov) hi
        · exact h
      have hbn := hs.2.2.bounds n hnr
      have hb1 := hs.1
      have hb2 := hs.2.1
      have hcn := hcov
      unfold covers at hi hcn
      have h1 : ¬ (p + 1 ≤ indexNode.begin) := by omega
      have h2 : p ≥ indexNode.end_ := by omega
      cases rest with
      | nil => cases hnr
      | cons k rest1 =>
        have hcc := List.chain'_cons.mp hc
        obtain ⟨y, ys, e1, e2, e3⟩ :=
          ih false indexNode.end_ hs.2.2 hcc.2 hzr ⟨n, hnr, hcov, hval⟩
        have e4 := e2 k rfl
        refine ⟨indexNode, y :: ys, ?_, ?_, ?_⟩
        · rw [spliceFrom]
          simp only [h1, h2, if_true, if_false, e1]
        · intro h hh
          simp only [List.head?_cons, Option.mem_def, Option.some.injEq] at hh
          subst hh
          exact ⟨rfl, rfl⟩
        · have hne : ¬ (indexNode.value = y.value ∧ indexNode.end_ = y.begin) := by
            rw [e4.1, e4.2]
            exact hcc.1
          rw [mergeFrom, if_neg hne, e3]

theorem outPtr_none (n0 n1 : Nat) : OutPtr n0 n1 none := by
  intro x hx; cases hx

theorem frame_fresh {n0 n1 : Nat} {hB h : Heap} (hf : Frame n0 n1 hB h) :
    OutPtr n0 n1 (some h.length) := by
  intro x hx
  simp only [Option.mem_def, Option.some.injEq] at hx
  have := hf.1
  omega

theorem deref_some_lt (h : Heap) (a : Nat) (ha : a < h.length) :
    deref h (some a) = h[a] := by
  simp [deref, List.getD, List.getElem?_eq_getElem ha]

theorem deref_some_ge (h : Heap) (a : Nat) (ha : h.length ≤ a) :
    deref h (some a) = ⟨0, 0, 0, none⟩ := by
  simp [deref, List.getD, List.getElem?_eq_none ha]

theorem frame_deref_next {n0 n1 : Nat} {hB h : Heap} (hf : Frame n0 n1 hB h) {p : Ptr}
    (hp : OutPtr n0 n1 p) : OutPtr n0 n1 (deref h p).next := by
  cases p with
  | none => exact outPtr_none n0 n1
  | some a =>
    by_cases ha : a < h.length
    · rw [deref_some_lt h a ha]
      exact hf.2.2 a _ (List.getElem?_eq_getElem ha) (hp a rfl)
    · rw [deref_some_ge h a (Nat.le_of_not_lt ha)]
      exact outPtr_none n0 n1

theorem frame_store {n0 n1 : Nat} {hB h : Heap} (hf : Frame n0 n1 hB h) {p : Ptr} {c : Cell}
    (hp : OutPtr n0 n1 p) (hc : OutPtr n0 n1 c.next) : Frame n0 n1 hB (store h p c) := by
  cases p with
  | none => exact hf
  | some a =>
    have ha := hp a rfl
    refine ⟨by simpa [store] using hf.1, ?_, ?_⟩
    · intro x h1 h2
      have hne : a ≠ x := by omega
      simp only [store, List.getElem?_set_ne hne]
      exact hf.2.1 x h1 h2
    · intro x d hx hout
      by_cases hax : a = x
      · subst hax
        simp only [store, List.getElem?_set_self'] at hx
        cases hh : h[a]? with
        | none => simp [hh] at hx
        | some e =>
          have hd : d = c := by simpa [hh] using hx.symm
          rw [hd]
          exact hc
      · simp only [store, List.getElem?_set_ne hax] at hx
        exact hf.2.2 x d hx hout

theorem frame_setBegin {n0 n1 : Nat} {hB h : Heap} (hf : Frame n0 n1 hB h) {p : Ptr}
    (b : Int) (hp : OutPtr n0 n1 p) : Frame n0 n1 hB (setBegin h p b) :=
  frame_store hf hp (frame_deref_next hf hp)

theorem frame_setEnd {n0 n1 : Nat} {hB h : Heap} (hf : Frame n0 n1 hB h) {p : Ptr}
    (e : Int) (hp : OutPtr n0 n1 p) : Frame n0 n1 hB (setEnd h p e) :=
  frame_store hf hp (frame_deref_next hf hp)

theorem frame_setValue {n0 n1 : Nat} {hB h : Heap} (hf : Frame n0 n1 hB h) {p : Ptr}
    (v : Int) (hp : OutPtr n0 n1 p) : Frame n0 n1 hB (setValue h p v) :=
  frame_store hf hp (frame_deref_next hf hp)

theorem frame_setNext {n0 n1 : Nat} {hB h : Heap} (hf : Frame n0 n1 hB h) {p q : Ptr}
    (hp : OutPtr n0 n1 p) (hq : OutPtr n0 n1 q) : Frame n0 n1 hB (setNext h p q) :=
  frame_store hf hp hq

theorem frame_allocNode {n0 n1 : Nat} {hB h : Heap} (hf : Frame n0 n1 hB h) (b e v : Int) :
    Frame n0 n1 hB (allocNode h b e v) := by
  have hlen := hf.1
  refine ⟨by simp [allocNode]; omega, ?_, ?_⟩
  · intro x h1 h2
    have hx : x < h.length := by omega
    simp only [allocNode, List.getElem?_append_left hx]
    exact hf.2.1 x h1 h2
  · intro x c hx hout
    by_cases hlt : x < h.length
    · simp only [allocNode, List.getElem?_append_left hlt] at hx
      exact hf.2.2 x c hx hout
    · have hge : h.length ≤ x := Nat.le_of_not_lt hlt
      simp only [allocNode, List.getElem?_append_right hge] at hx
      have : c.next = none := by
        cases hk : x - h.length with
        | zero => simp [hk] at hx; rw [← hx]
        | succ k => simp [hk] at hx
      rw [this]
      exact outPtr_none n0 n1

theorem frame_fresh_alloc {n0 n1 : Nat} {hB h : Heap} (hf : Frame n0 n1 hB h) (b e v : Int) :
    Frame n0 n1 hB (allocNode h b e v) ∧ OutPtr n0 n1 (some h.length) :=
  ⟨frame_allocNode hf b e v, frame_fresh hf⟩

theorem good_unlinkH {n0 n1 : Nat} {hB h : Heap} {pHead prevNode x : Ptr}
    (hf : Frame n0 n1 hB h) (hh : OutPtr n0 n1 pHead) (hpv : OutPtr n0 n1 prevNode)
    (hx : OutPtr n0 n1 x) : Good n0 n1 hB (unlinkH h pHead prevNode x) := by
  unfold unlinkH
  split_ifs
  · exact ⟨frame_setNext hf hpv (frame_deref_next hf hx), hh⟩
  · exact ⟨hf, frame_deref_next hf hx⟩

theorem good_mergeLoopH {n0 n1 : Nat} {hB : Heap} (fuel : Nat) (h : Heap) (pHead current : Ptr)
    (hf : Frame n0 n1 hB h) (hh : OutPtr n0 n1 pHead) (hc : OutPtr n0 n1 current) :
    Good n0 n1 hB (mergeLoopH fuel h pHead current) := by
  induction fuel generalizing h pHead current with
  | zero => exact ⟨hf, hh⟩
  | succ fuel ih =>
    unfold mergeLoopH
    simp only []
    have hn := frame_deref_next hf hc
    split_ifs
    · apply ih
      · exact frame_setNext (frame_setEnd hf _ hc) hc
          (frame_deref_next (frame_setEnd hf _ hc) hn)
      · exact hc
      · exact hc
    · apply ih
      · exact frame_setNext (frame_setEnd hf _ hc) hc
          (frame_deref_next (frame_setEnd hf _ hc) hn)
      · exact hh
      · exact hc
    · exact ih h pHead _ hf hh hn
    · exact ⟨hf, hh⟩

theorem good_mergeNodesH {n0 n1 : Nat} {hB : Heap} (fuel : Nat) (s : Heap × Ptr)
    (hs : Good n0 n1 hB s) : Good n0 n1 hB (mergeNodesH fuel s.1 s.2) :=
  good_mergeLoopH fuel s.1 s.2 s.2 hs.1 hs.2 hs.2

theorem good_mk {n0 n1 : Nat} {hB h : Heap} {p : Ptr} (hf : Frame n0 n1 hB h)
    (hp : OutPtr n0 n1 p) : Good n0 n1 hB (h, p) := ⟨hf, hp⟩

theorem good_insertLoopH {n0 n1 : Nat} {hB : Heap} (value : Int) (newNode : Ptr)
    (mfuel fuel : Nat) (h : Heap) (pHead indexNode prevNode : Ptr)
    (hf : Frame n0 n1 hB h) (hnew : OutPtr n0 n1 newNode) (hh : OutPtr n0 n1 pHead)
    (hi : OutPtr n0 n1 indexNode) (hpv : OutPtr n0 n1 prevNode) :
    Good n0 n1 hB (insertLoopH value newNode mfuel fuel h pHead indexNode prevNode) := by
  induction fuel generalizing h pHead indexNode prevNode with
  | zero => exact ⟨hf, hh⟩
  | succ fuel ih =>
    unfold insertLoopH
    simp only []
    split_ifs <;>
      first
      | exact ih h pHead _ indexNode hf hh (frame_deref_next hf hi) hi
      | (apply good_mergeNodesH
         repeat' (first
           | assumption
           | exact outPtr_none _ _
           | apply good_unlinkH
           | apply good_mk
           | apply frame_fresh
           | apply frame_deref_next
           | apply frame_setNext
           | apply frame_setEnd
           | apply frame_setBegin
           | apply frame_setValue
           | apply frame_allocNode))

theorem good_insertValueH {n0 n1 : Nat} {hB : Heap} (fuel : Nat) (s : Heap × Ptr)
    (position value : Int) (hs : Good n0 n1 hB s) :
    Good n0 n1 hB (insertValueH fuel s.1 s.2 position value) := by
  obtain ⟨hf, hh⟩ := hs
  have hnew : OutPtr n0 n1 (some s.1.length) := frame_fresh hf
  have hf1 := frame_allocNode hf position (wrapInt (position + 1)) value
  unfold insertValueH
  simp only []
  split_ifs
  · exact good_mergeNodesH fuel (_, _) (good_mk (frame_setNext hf1 hnew hh) hnew)
  · exact good_insertLoopH value _ fuel fuel _ _ _ _ hf1 hnew hh hh (outPtr_none n0 n1)

theorem good_insertAllH {n0 n1 : Nat} {hB : Heap} (fuel : Nat) (calls : List (Int × Int))
    (s : Heap × Ptr) (hs : Good n0 n1 hB s) :
    Good n0 n1 hB (insertAllH fuel s.1 s.2 calls) := by
  induction calls generalizing s with
  | nil => exact hs
  | cons pv calls ih =>
    exact ih _ (good_insertValueH fuel s pv.1 pv.2 hs)

theorem deref_of_getElem? {h : Heap} {a : Nat} {c : Cell} (hc : h[a]? = some c) :
    deref h (some a) = c := by
  simp [deref, List.getD, hc]

theorem linked_of_prefix {h0 h1 : Heap} (hpre : ∀ x, x < h0.length → h1[x]? = h0[x]?)
    (l : List RangeNode) (p : Ptr) (hl : Linked h0 p l) : Linked h1 p l := by
  induction l generalizing p with
  | nil => exact hl
  | cons n rest ih =>
    obtain ⟨a, c, hp, hc, h1b, h1e, h1v, hr⟩ := hl
    have ha : a < h0.length := by
      by_contra hge
      rw [List.getElem?_eq_none (Nat.le_of_not_lt hge)] at hc
      cases hc
    exact ⟨a, c, hp, by rw [hpre a ha]; exact hc, h1b, h1e, h1v, ih _ hr⟩

theorem linked_of_cellsAt {n0 : Nat} {l : List RangeNode} {h : Heap} (hc : CellsAt n0 l h)
    (suffix : List RangeNode) (k : Nat) (hk : l.drop k = suffix) :
    Linked h (if k < l.length then some (n0 + k) else none) suffix := by
  induction suffix generalizing k with
  | nil =>
    have : l.length ≤ k := List.drop_eq_nil_iff.mp hk
    have hn : ¬ k < l.length := by omega
    simp only [hn, if_false, Linked]
  | cons n rest ih =>
    have hlt : k < l.length := by
      by_contra hge
      rw [List.drop_eq_nil_iff.mpr (Nat.le_of_not_lt hge)] at hk
      cases hk
    have hd := List.drop_eq_getElem_cons hlt
    rw [hd] at hk
    have hn : l[k] = n := (List.cons.inj hk).1
    have hr : l.drop (k + 1) = rest := (List.cons.inj hk).2
    have hg : l[k]? = some n := by rw [List.getElem?_eq_getElem hlt, hn]
    simp only [hlt, if_true]
    refine ⟨n0 + k, _, rfl, hc k n hg, rfl, rfl, rfl, ?_⟩
    have := ih (k + 1) hr
    simpa [Nat.add_assoc] using this

theorem linked_headPtr {n0 : Nat} {l : List RangeNode} {h : Heap} (hc : CellsAt n0 l h) :
    Linked h (headPtr n0 l) l := by
  have := linked_of_cellsAt hc l 0 rfl
  cases l with
  | nil => simpa [headPtr] using this
  | cons n rest => simpa [headPtr] using this

theorem store_length (h : Heap) (p : Ptr) (c : Cell) : (store h p c).length = h.length := by
  cases p <;> simp [store]

theorem store_getElem?_ne (h : Heap) (a x : Nat) (c : Cell) (hne : a ≠ x) :
    (store h (some a) c)[x]? = h[x]? := by
  simp only [store, List.getElem?_set_ne hne]

theorem store_getElem?_self (h : Heap) (a : Nat) (c : Cell) (ha : a < h.length) :
    (store h (some a) c)[a]? = some c := by
  simp [store, List.getElem?_set_self ha]

theorem cellsAt_snoc (n0 : Nat) (done : List RangeNode) (h : Heap) (n : RangeNode)
    (hlen : h.length = n0 + done.length) (hc : CellsAt n0 done h) :
    CellsAt n0 (done ++ [n])
      (if done = [] then allocNode h n.begin n.end_ n.value
        else setNext (allocNode h n.begin n.end_ n.value) (tailPtr n0 done) (some h.length)) ∧
    (if done = [] then allocNode h n.begin n.end_ n.value
        else setNext (allocNode h n.begin n.end_ n.value) (tailPtr n0 done)
          (some h.length)).length = n0 + (done ++ [n]).length ∧
    ∀ x, x < n0 →
      (if done = [] then allocNode h n.begin n.end_ n.value
        else setNext (allocNode h n.begin n.end_ n.value) (tailPtr n0 done)
          (some h.length))[x]? = h[x]? := by
  by_cases hd : done = []
  · subst hd
    simp only [if_true, List.nil_append, List.length_nil, Nat.add_zero] at hlen ⊢
    refine ⟨?_, by simp [allocNode, hlen], ?_⟩
    · intro i m hi
      cases i with
      | zero =>
        simp only [List.getElem?_cons_zero, Option.some.injEq] at hi
        subst hi
        simp [allocNode, ← hlen]
      | succ i => simp at hi
    · intro x hx
      simp only [allocNode]
      exact List.getElem?_append_left (by omega)
  · simp only [hd, if_false]
    have hpos : 0 < done.length := List.length_pos.mpr hd
    have htail : tailPtr n0 done = some (n0 + done.length - 1) := by simp [tailPtr, hd]
    obtain ⟨m, hm⟩ : ∃ m, done[done.length - 1]? = some m :=
      ⟨done[done.length - 1], List.getElem?_eq_getElem (by omega)⟩
    have hcell := hc (done.length - 1) m hm
    have hidx : n0 + (done.length - 1) = n0 + done.length - 1 := by omega
    have hnlt : ¬ (done.length - 1 + 1 < done.length) := by omega
    simp only [hnlt, if_false] at hcell
    rw [hidx] at hcell
    have hlt : n0 + done.length - 1 < h.length := by omega
    have hcell1 : (allocNode h n.begin n.end_ n.value)[n0 + done.length - 1]?
        = some ⟨m.begin, m.end_, m.value, none⟩ := by
      simp only [allocNode]
      rw [List.getElem?_append_left hlt]
      exact hcell
    have hder := deref_of_getElem? hcell1
    rw [htail]
    unfold setNext
    rw [hder]
    refine ⟨?_, ?_, ?_⟩
    · intro i k hi
      by_cases hi1 : i < done.length
      · have hk : done[i]? = some k := by
          rw [List.getElem?_append_left hi1] at hi
          exact hi
        by_cases hi2 : i = done.length - 1
        · subst hi2
          have hmk : m = k := by
            rw [hm] at hk
            exact Option.some.inj hk
          subst hmk
          rw [hidx, store_getElem?_self _ _ _ (by simp [allocNode]; omega)]
          have h1 : done.length - 1 + 1 < (done ++ [n]).length := by simp; omega
          simp only [h1, if_true, hlen]
          have h2 : n0 + done.length - 1 + 1 = n0 + done.length := by omega
          rw [h2]
        · rw [store_getElem?_ne _ _ _ _ (by omega)]
          simp only [allocNode]
          rw [List.getElem?_append_left (by omega)]
          rw [hc i k hk]
          have h1 : i + 1 < done.length := by omega
          have h2 : i + 1 < (done ++ [n]).length := by simp; omega
          simp only [h1, h2, if_true]
      · have hi3 : i = done.length := by
          by_contra hne
          have : (done ++ [n]).length ≤ i := by simp; omega
          rw [List.getElem?_eq_none this] at hi
          cases hi
        subst hi3
        have hk : k = n := by
          simp at hi
          exact hi.symm
        subst hk
        rw [store_getElem?_ne _ _ _ _ (by omega)]
        simp only [allocNode]
        rw [List.getElem?_append_right (by omega)]
        have h1 : n0 + done.length - h.length = 0 := by omega
        have h2 : ¬ (done.length + 1 < (done ++ [k]).length) := by simp
        simp [h1, h2]
    · rw [store_length]
      simp [allocNode, hlen]
      omega
    · intro x hx
      rw [store_getElem?_ne _ _ _ _ (by omega)]
      simp only [allocNode]
      exact List.getElem?_append_left (by omega)

theorem copyLoopH_spec (h0 : Heap) (rem : List RangeNode) :
    ∀ (done : List RangeNode) (fuel : Nat) (h : Heap) (other : Ptr),
      h.length = h0.length + done.length → CellsAt h0.length done h →
      (∀ x, x < h0.length → h[x]? = h0[x]?) → Linked h0 other rem → rem.length ≤ fuel →
      (copyLoopH fuel h other (headPtr h0.length done) (tailPtr h0.length done)).1.length
          = h0.length + (done ++ rem).length ∧
        CellsAt h0.length (done ++ rem)
          (copyLoopH fuel h other (headPtr h0.length done) (tailPtr h0.length done)).1 ∧
        (∀ x, x < h0.length →
          (copyLoopH fuel h other (headPtr h0.length done) (tailPtr h0.length done)).1[x]?
            = h0[x]?) ∧
        (copyLoopH fuel h other (headPtr h0.length done) (tailPtr h0.length done)).2.1
          = headPtr h0.length (done ++ rem) ∧
        (copyLoopH fuel h other (headPtr h0.length done) (tailPtr h0.length done)).2.2
          = tailPtr h0.length (done ++ rem) := by
  induction rem with
  | nil =>
    intro done fuel h other hlen hc hpre hl _
    have ho : other = none := hl
    subst ho
    have he : copyLoopH fuel h none (headPtr h0.length done) (tailPtr h0.length done)
        = (h, headPtr h0.length done, tailPtr h0.length done) := by
      cases fuel <;> simp [copyLoopH]
    rw [he, List.append_nil]
    exact ⟨hlen, hc, hpre, rfl, rfl⟩
  | cons n rem ih =>
    intro done fuel h other hlen hc hpre hl hfuel
    obtain ⟨a, c, ho, hca, hb, he, hv, hr⟩ := hl
    subst ho
    have ha : a < h0.length := by
      by_contra hge
      rw [List.getElem?_eq_none (Nat.le_of_not_lt hge)] at hca
      cases hca
    cases fuel with
    | zero => simp at hfuel
    | succ fuel =>
      have hfuel1 : rem.length ≤ fuel := by simpa using hfuel
      have hd0 : deref h (some a) = c := deref_of_getElem? (by rw [hpre a ha]; exact hca)
      obtain ⟨s1, s2, s3⟩ := cellsAt_snoc h0.length done h n hlen hc
      have hpreN : ∀ x, x < h0.length →
          (if done = [] then allocNode h n.begin n.end_ n.value
            else setNext (allocNode h n.begin n.end_ n.value) (tailPtr h0.length done)
              (some h.length))[x]? = h0[x]? := by
        intro x hx
        rw [s3 x hx, hpre x hx]
      have hdN : deref (if done = [] then allocNode h n.begin n.end_ n.value
            else setNext (allocNode h n.begin n.end_ n.value) (tailPtr h0.length done)
              (some h.length)) (some a) = c :=
        deref_of_getElem? (by rw [hpreN a ha]; exact hca)
      have hlenN : (done ++ [n]).length = done.length + 1 := by simp
      have key := ih (done ++ [n]) fuel _ c.next (by rw [s2]) s1 hpreN hr hfuel1
      have hhead : headPtr h0.length (done ++ [n]) = some h0.length := by simp [headPtr]
      have htail : tailPtr h0.length (done ++ [n]) = some h.length := by
        simp [tailPtr, hlen]
      rw [hhead, htail, List.append_assoc] at key
      simp only [List.singleton_append] at key
      unfold copyLoopH
      simp only [ne_eq, not_false_eq_true, if_true, hd0, hb, he, hv, reduceCtorEq]
      by_cases hd : done = []
      · subst hd
        simp only [if_true] at key hdN
        simp only [tailPtr, headPtr, if_true, hdN]
        simp only [List.length_nil, Nat.add_zero] at hlen
        rw [hlen]
        rw [hlen] at key
        exact key
      · simp only [hd, if_false] at key hdN
        have htn : tailPtr h0.length done ≠ none := by simp [tailPtr, hd]
        have hhd : headPtr h0.length done = some h0.length := by simp [headPtr, hd]
        simp only [htn, if_false, hdN, hhd]
        exact key

theorem copyCtorH_spec (h : Heap) (a : Ptr) (l : List RangeNode) (fuel : Nat)
    (hl : Linked h a l) (hfuel : l.length ≤ fuel) :
    (copyCtorH fuel h a).1.length = h.length + l.length ∧
      CellsAt h.length l (copyCtorH fuel h a).1 ∧
      (∀ x, x < h.length → (copyCtorH fuel h a).1[x]? = h[x]?) ∧
      (copyCtorH fuel h a).2 = headPtr h.length l := by
  have hh : headPtr h.length [] = none := rfl
  have ht : tailPtr h.length [] = none := rfl
  have key := copyLoopH_spec h l [] fuel h a (by simp)
    (by intro i n hi; simp at hi) (fun _ _ => rfl) hl hfuel
  rw [hh, ht, List.nil_append] at key
  obtain ⟨k1, k2, k3, k4, k5⟩ := key
  unfold copyCtorH
  simp only []
  rw [k5, k4]
  by_cases hd : l = []
  · have : tailPtr h.length l = none := by simp [tailPtr, hd]
    simp only [this, ne_eq, not_true_eq_false, if_false]
    exact ⟨k1, k2, k3, trivial⟩
  · have hpos : 0 < l.length := List.length_pos.mpr hd
    have htl : tailPtr h.length l = some (h.length + l.length - 1) := by simp [tailPtr, hd]
    simp only [htl, ne_eq, not_false_eq_true, if_true, reduceCtorEq]
    obtain ⟨m, hm⟩ : ∃ m, l[l.length - 1]? = some m :=
      ⟨l[l.length - 1], List.getElem?_eq_getElem (by omega)⟩
    have hcell := k2 (l.length - 1) m hm
    have hnlt : ¬ (l.length - 1 + 1 < l.length) := by omega
    have hidx : h.length + (l.length - 1) = h.length + l.length - 1 := by omega
    simp only [hnlt, if_false] at hcell
    rw [hidx] at hcell
    have hsame : ∀ x : Nat, (setNext (copyLoopH fuel h a none none).1
        (some (h.length + l.length - 1)) none)[x]? = (copyLoopH fuel h a none none).1[x]? := by
      intro x
      unfold setNext
      rw [deref_of_getElem? hcell]
      by_cases hx : h.length + l.length - 1 = x
      · subst hx
        rw [store_getElem?_self _ _ _ (by omega), hcell]
      · rw [store_getElem?_ne _ _ _ _ hx]
    refine ⟨?_, ?_, ?_, trivial⟩
    · unfold setNext
      rw [store_length, k1]
    · intro i n hi
      rw [hsame]
      exact k2 i n hi
    · intro x hx
      rw [hsame]
      exact k3 x hx

theorem getH_of_linked (q : Int) (l : List RangeNode) :
    ∀ (fuel : Nat) (h : Heap) (p : Ptr), Linked h p l → l.length ≤ fuel →
      getH fuel h p q = get l q := by
  induction l with
  | nil =>
    intro fuel h p hl _
    have hp : p = none := hl
    subst hp
    cases fuel <;> simp [getH, getLoopH, get, getSeek]
  | cons n rest ih =>
    intro fuel h p hl hfuel
    obtain ⟨a, c, hp, hc, hb, he, hv, hr⟩ := hl
    subst hp
    cases fuel with
    | zero => simp at hfuel
    | succ fuel =>
      have hd := deref_of_getElem? hc
      rw [get_cons]
      by_cases hq : n.begin = q
      · simp [getH, getLoopH, hd, hb, hq, hv]
      · have h1 : getH (fuel + 1) h (some a) q = getH fuel h c.next q := by
          simp [getH, getLoopH, hd, hb, hq]
        rw [h1, if_neg hq]
        exact ih fuel h c.next hr (by simpa using hfuel)

theorem linked_of_frame {n0 : Nat} {l : List RangeNode} {hB h : Heap}
    (hf : Frame n0 (n0 + l.length) hB h) (hc : CellsAt n0 l hB) :
    Linked h (headPtr n0 l) l := by
  apply linked_headPtr
  intro i n hi
  have hlt : i < l.length := by
    by_contra hge
    rw [List.getElem?_eq_none (Nat.le_of_not_lt hge)] at hi
    cases hi
  rw [hf.2.1 (n0 + i) (by omega) (by omega)]
  exact hc i n hi

theorem frame_after_copy (h : Heap) (a : Ptr) (l : List RangeNode) (fuel : Nat)
    (hwf : WellFormed h) (hl : Linked h a l) (hfuel : l.length ≤ fuel) :
    Good h.length (h.length + l.length) (copyCtorH fuel h a).1 ((copyCtorH fuel h a).1, a) := by
  obtain ⟨k1, k2, k3, k4⟩ := copyCtorH_spec h a l fuel hl hfuel
  refine ⟨⟨by rw [k1], fun _ _ _ => rfl, ?_⟩, ?_⟩
  · intro x c hx hout y hy
    have hxl : x < (copyCtorH fuel h a).1.length := by
      by_contra hge
      rw [List.getElem?_eq_none (Nat.le_of_not_lt hge)] at hx
      cases hx
    have hx0 : x < h.length := by omega
    rw [k3 x hx0] at hx
    have := hwf c (List.getElem?_mem hx) y hy
    omega
  · intro x hx
    cases l with
    | nil =>
      have : a = none := hl
      subst this
      cases hx
    | cons n rest =>
      obtain ⟨b, c, hp, hc, _⟩ := hl
      subst hp
      simp only [Option.mem_def, Option.some.injEq] at hx
      subst hx
      have : b < h.length := by
        by_contra hge
        rw [List.getElem?_eq_none (Nat.le_of_not_lt hge)] at hc
        cases hc
      omega

/-- On a sample run through the split, unlink and merge branches the chain read off the
heap after `insert_value` calls is the chain computed on lists. -/
theorem insertAllH_sample :
    chainOfH 8 (insertAllH 8 [] none [(0, 1), (2, 2), (3, 2), (2, 5), (3, 0), (0, 0)]).1
        (insertAllH 8 [] none [(0, 1), (2, 2), (3, 2), (2, 5), (3, 0), (0, 0)]).2
      = insertAll empty [(0, 1), (2, 2), (3, 2), (2, 5), (3, 0), (0, 0)] := by
  decide

/-- On a sample heap, after copying list `A` and then calling `insert_value(5, 9)` on `A`,
the chain of `A` read off the heap is the one computed on lists and the chain of the copy
is the original one. -/
theorem copy_then_insert_sample :
    chainOfH 8 (insertValueH 8 (copyCtorH 2 [⟨0, 2, 1, some 1⟩, ⟨4, 7, 2, none⟩] (some 0)).1
        (some 0) 5 9).1
        (insertValueH 8 (copyCtorH 2 [⟨0, 2, 1, some 1⟩, ⟨4, 7, 2, none⟩] (some 0)).1
          (some 0) 5 9).2
      = (insert_value [⟨0, 2, 1⟩, ⟨4, 7, 2⟩] 5 9).2 ∧
    chainOfH 8 (insertValueH 8 (copyCtorH 2 [⟨0, 2, 1, some 1⟩, ⟨4, 7, 2, none⟩] (some 0)).1
        (some 0) 5 9).1
        (copyCtorH 2 [⟨0, 2, 1, some 1⟩, ⟨4, 7, 2, none⟩] (some 0)).2
      = [⟨0, 2, 1⟩, ⟨4, 7, 2⟩] := by
  decide

theorem begins_cons (n : RangeNode) (l : Chain) : begins (n :: l) = insert n.begin (begins l) := by
  simp [begins]

theorem mem_begins {l : Chain} {p : Int} : p ∈ begins l ↔ ∃ n ∈ l, n.begin = p := by
  simp [begins]

theorem head_not_mem_begins {n : RangeNode} {l : Chain} (h : StrictBegins (n :: l)) :
    n.begin ∉ begins l := by
  intro hm
  obtain ⟨m, hml, hmb⟩ := mem_begins.mp hm
  have := (List.pairwise_cons.mp h).1 m hml
  omega

theorem lt_not_mem_begins {n : RangeNode} {l : Chain} {p : Int} (h : StrictBegins (n :: l))
    (hp : p < n.begin) : p ∉ begins (n :: l) := by
  intro hm
  obtain ⟨m, hml, hmb⟩ := mem_begins.mp hm
  rcases List.mem_cons.mp hml with rfl | hml
  · omega
  · have := (List.pairwise_cons.mp h).1 m hml
    omega

theorem sparseDot_comm (A B : Chain) : sparseDot A B = sparseDot B A := by
  unfold sparseDot
  rw [Finset.inter_comm]
  exact Finset.sum_congr rfl (fun p _ => mul_comm _ _)

theorem sparseDot_skip_left (a : RangeNode) (as B : Chain) (h1 : a.begin ∉ begins B)
    (h2 : a.begin ∉ begins as) : sparseDot (a :: as) B = sparseDot as B := by
  unfold sparseDot
  rw [begins_cons, Finset.insert_inter_of_not_mem h1]
  apply Finset.sum_congr rfl
  intro p hp
  have hpa : ¬ a.begin = p := by
    intro he
    exact h2 (he ▸ (Finset.mem_inter.mp hp).1)
  rw [get_cons, if_neg hpa]

theorem sparseDot_skip_right (A : Chain) (b : RangeNode) (bs : Chain) (h1 : b.begin ∉ begins A)
    (h2 : b.begin ∉ begins bs) : sparseDot A (b :: bs) = sparseDot A bs := by
  rw [sparseDot_comm, sparseDot_skip_left b bs A h1 h2, sparseDot_comm]

theorem sparseDot_match (a b : RangeNode) (as bs : Chain) (hab : a.begin = b.begin)
    (h1 : a.begin ∉ begins as) :
    sparseDot (a :: as) (b :: bs) = a.value * b.value + sparseDot as bs := by
  unfold sparseDot
  rw [begins_cons, begins_cons, ← hab, ← Finset.insert_inter_distrib]
  have hni : a.begin ∉ begins as ∩ begins bs := fun hm => h1 (Finset.mem_inter.mp hm).1
  rw [Finset.sum_insert hni]
  congr 1
  · rw [get_cons, get_cons, if_pos rfl, if_pos hab.symm]
  · apply Finset.sum_congr rfl
    intro p hp
    have hpa : ¬ a.begin = p := by
      intro he
      exact h1 (he ▸ (Finset.mem_inter.mp hp).1)
    have hpb : ¬ b.begin = p := by
      rw [← hab]; exact hpa
    rw [get_cons, get_cons, if_neg hpa, if_neg hpb]

theorem operatorMulLoop_unit (A B : List RangeNode) (product : Int) :
    UnitWidth A → UnitWidth B → StrictBegins A → StrictBegins B →
    (∀ a ∈ A, ∀ b ∈ B, IsInt (a.end_ - b.begin)) → IsInt product →
    operatorMulLoop A B product = wrapInt (product + sparseDot A B) := by
  induction A, B, product using operatorMulLoop.induct with
  | case1 B product =>
    intro _ _ _ _ _ hp
    have h0 : sparseDot [] B = 0 := by simp [sparseDot, begins]
    rw [operatorMulLoop, h0, add_zero, wrapInt_of_isInt hp]
  | case2 a as product =>
    intro _ _ _ _ _ hp
    have h0 : sparseDot (a :: as) [] = 0 := by simp [sparseDot, begins]
    rw [operatorMulLoop, h0, add_zero, wrapInt_of_isInt hp]
  | case3 current currentNext rhs rhsNext product h ih =>
    intro hA hB sA sB hg _
    rw [operatorMulLoop, if_pos h,
      ih (fun n hn => hA n (List.mem_cons_of_mem _ hn))
        (fun n hn => hB n (List.mem_cons_of_mem _ hn))
        (List.pairwise_cons.mp sA).2 (List.pairwise_cons.mp sB).2
        (fun a ha b hb => hg a (List.mem_cons_of_mem _ ha) b (List.mem_cons_of_mem _ hb))
        (isInt_wrapInt _),
      sparseDot_match current rhs currentNext rhsNext h (head_not_mem_begins sA)]
    unfold wrapInt
    omega
  | case4 current currentNext rhs rhsNext product h1 h2 h3 ih =>
    intro hA hB sA sB _ _
    have e1 := hA current (List.mem_cons_self _ _)
    have e2 := hB rhs (List.mem_cons_self _ _)
    omega
  | case5 current currentNext rhs rhsNext product h1 h2 h3 h4 ih =>
    intro hA hB sA sB hg _
    have e1 := hA current (List.mem_cons_self _ _)
    have e2 := hB rhs (List.mem_cons_self _ _)
    rw [wrapInt_of_isInt (hg current (List.mem_cons_self _ _) rhs (List.mem_cons_self _ _))]
      at h4
    omega
  | case6 current currentNext rhs rhsNext product h1 h2 h3 h4 ih =>
    intro hA hB sA sB hg hp
    rw [operatorMulLoop]
    simp only [h1, h2, h3, h4, if_true, if_false]
    rw [ih (fun n hn => hA n (List.mem_cons_of_mem _ hn)) hB (List.pairwise_cons.mp sA).2 sB
        (fun a ha => hg a (List.mem_cons_of_mem _ ha)) hp,
      sparseDot_skip_left current currentNext (rhs :: rhsNext) (lt_not_mem_begins sB h2)
        (head_not_mem_begins sA)]
  | case7 current currentNext rhs rhsNext product h1 h2 h3 h4 ih =>
    intro hA hB sA sB _ _
    have e1 := hA current (List.mem_cons_self _ _)
    have e2 := hB rhs (List.mem_cons_self _ _)
    omega
  | case8 current currentNext rhs rhsNext product h1 h2 h3 h4 ih =>
    intro hA hB sA sB hg hp
    rw [operatorMulLoop]
    simp only [h1, h2, h3, h4, if_true, if_false]
    rw [ih hA (fun n hn => hB n (List.mem_cons_of_mem _ hn)) sA (List.pairwise_cons.mp sB).2
        (fun a ha b hb => hg a ha b (List.mem_cons_of_mem _ hb)) hp,
      sparseDot_skip_right (current :: currentNext) rhs rhsNext (lt_not_mem_begins sA h3)
        (head_not_mem_begins sB)]
  | case9 current currentNext rhs rhsNext product h1 h2 h3 ih =>
    intro hA hB sA sB _ _
    omega

/-! ## Claims -/

/-- C1. A zero value can be stored: `insert_value(5, 0)` on the empty list goes through the
prepend branch of Step 2, which links the new node without testing its value, and the
chain afterwards is the single interval `[5, 6)` with value `0`. The head path of S4d
does the same: deleting position `0` of the run `[0, 2)` leaves `[0, 1)` with value `0`
in front of `[1, 2)`. -/
theorem prepend_stores_zero :
    insertAll empty [(5, 0)] = [⟨5, 6, 0⟩] ∧ ¬ NoZero (insertAll empty [(5, 0)]) ∧
      insertAll empty [(0, 1), (1, 1), (0, 0)] = [⟨0, 1, 0⟩, ⟨1, 2, 1⟩] := by
  decide

/-- C2. An empty interval can be stored: after `insert_value(0, 1)`, `insert_value(1, 1)`
(coalesced to `[0, 2)`) and `insert_value(1, 5)`, branch S4f has split off the trailing
node `[2, 2)`, so that not every stored interval has `begin < end`. -/
theorem split_stores_empty_range :
    insertAll empty [(0, 1), (1, 1), (1, 5)] = [⟨0, 1, 1⟩, ⟨1, 2, 5⟩, ⟨2, 2, 1⟩] ∧
      ¬ NonEmptyRanges (insertAll empty [(0, 1), (1, 1), (1, 5)]) := by
  decide

/-- C4. Maximal coalescing: `mergeNodes` leaves no two consecutive intervals with equal
values that touch, for any input chain, and so does `insert_value` for every chain,
position and value, its result being an output of `mergeNodes`. -/
theorem insert_value_coalesced (chain : Chain) (position value : Int) :
    (∀ c : Chain, Coalesced (mergeNodes c)) ∧
      (∃ raw : Chain, (insert_value chain position value).2 = mergeNodes raw) ∧
      Coalesced (insert_value chain position value).2 := by
  refine ⟨mergeNodes_coalesced, insert_value_snd chain position value, ?_⟩
  obtain ⟨raw, h⟩ := insert_value_snd chain position value
  rw [h]
  exact mergeNodes_coalesced raw

/-- C5, at `INT_MAX`. The point update fails when `position + 1` overflows:
`insert_value(INT_MAX, 5)` on the empty list stores `[INT_MAX, INT_MIN)`, which covers no
position, so the effective value at `INT_MAX` is `0` afterwards, not `5`. -/
theorem insert_at_int_max_not_effective :
    Invariants empty ∧ IsInt 2147483647 ∧ IsInt 5 ∧
      (insert_value empty 2147483647 5).2 = [⟨2147483647, -2147483648, 5⟩] ∧
      effective (insert_value empty 2147483647 5).2 2147483647 = 0 ∧
      effective (insert_value empty 2147483647 5).2 2147483647 ≠ 5 := by
  refine ⟨?_, by decide, by decide, by decide, by decide, by decide⟩
  simp [Invariants, NonEmptyRanges, Ascending, Coalesced, NoZero, empty]

/-- C5. `insert_value` is a point update of the represented sparse array when
`position + 1` does not overflow: on a chain satisfying the four structural invariants and
for an int position `p` below `INT_MAX`, after `insert_value(p, v)` the effective value at
`p` is `v` and the effective value at every `q ≠ p` is what it was before. -/
theorem insert_value_point_update (chain : Chain) (p v : Int) (hinv : Invariants chain)
    (hp : IsInt p) (hmax : p < 2147483647) :
    effective (insert_value chain p v).2 p = v ∧
      ∀ q : Int, q ≠ p → effective (insert_value chain p v).2 q = effective chain q := by
  obtain ⟨hn, ha, _, hz⟩ := hinv
  have hw := wrapInt_succ hp hmax
  obtain ⟨lo, hs⟩ := SortedFrom.of_invariants chain hn ha
  obtain ⟨lo1, hs1⟩ := spliceValue_sorted chain p v hw ⟨lo, hs⟩
  have key : ∀ q : Int, effective (insert_value chain p v).2 q
      = if q = p then v else effective chain q := by
    intro q
    rw [insert_value_eq]
    show effective (mergeNodes (spliceValue chain p v)) q = _
    rw [effective_mergeNodes _ lo1 q hs1, effective_spliceValue chain p v q lo hw hs hz]
  refine ⟨by rw [key]; simp, ?_⟩
  intro q hq
  rw [key]
  simp [hq]

theorem insert_value_point_update_witness :
    Invariants [⟨0, 2, 1⟩, ⟨4, 7, 2⟩] ∧ IsInt 5 ∧ (5 : Int) < 2147483647 ∧
      (effective (insert_value [⟨0, 2, 1⟩, ⟨4, 7, 2⟩] 5 0).2 5 = 0 ∧
        ∀ q : Int, q ≠ 5 → effective (insert_value [⟨0, 2, 1⟩, ⟨4, 7, 2⟩] 5 0).2 q
          = effective [⟨0, 2, 1⟩, ⟨4, 7, 2⟩] q) :=
  ⟨by simp [Invariants, NonEmptyRanges, Ascending, Coalesced, NoZero], by decide, by decide,
    insert_value_point_update [⟨0, 2, 1⟩, ⟨4, 7, 2⟩] 5 0
      (by simp [Invariants, NonEmptyRanges, Ascending, Coalesced, NoZero])
      (by decide) (by decide)⟩

/-- C6. A position that was never inserted can read non-zero: after `insert_value(0, 1)`,
`insert_value(1, 1)`, `insert_value(1, 5)` the chain holds the empty node `[2, 2)` with
value `1`, and `get(2)` returns `1` although `2` was the position of no call. -/
theorem get_unset_position_nonzero :
    get (insertAll empty [(0, 1), (1, 1), (1, 5)]) 2 = 1 ∧
      (2 : Int) ∉ ([(0, 1), (1, 1), (1, 5)] : List (Int × Int)).map Prod.fst := by
  decide

/-- C7. `get` is an exact-begin lookup: `get(p)` is the value of the first interval in
chain order whose `begin` equals `p`, and `0` when no interval has `begin == p`; on the
empty list it is `0` for every `p`. -/
theorem get_exact_begin (chain : Chain) (p : Int) :
    get chain p = (match chain.find? (fun n => decide (n.begin = p)) with
      | some n => n.value
      | none => 0) ∧
    ((∀ n ∈ chain, n.begin ≠ p) → get chain p = 0) ∧
    get empty p = 0 := by
  refine ⟨get_eq_lookupBegin chain p, ?_, rfl⟩
  intro h
  rw [get_eq_lookupBegin]
  unfold lookupBegin
  have : chain.find? (fun n => decide (n.begin = p)) = none := by
    rw [List.find?_eq_none]
    intro n hn
    simpa using h n hn
  rw [this]

/-- C8, at `INT_MAX`. On the empty list `insert_value(INT_MAX, 3)` leaves the node
`[INT_MAX, INT_MIN)`, whose end is the wrapped `INT_MAX + 1`, not the interval
`[p, p+1)`. -/
theorem insert_on_empty_at_int_max :
    IsInt 2147483647 ∧ IsInt 3 ∧ (3 : Int) ≠ 0 ∧
      (insert_value empty 2147483647 3).2 = [⟨2147483647, -2147483648, 3⟩] ∧
      (insert_value empty 2147483647 3).2 ≠ [⟨2147483647, 2147483647 + 1, 3⟩] := by
  decide

/-- C8. Write-then-read on the empty list: for every int position `p` below `INT_MAX` and
non-zero value `v`, `insert_value(p, v)` returns `1` and leaves exactly the interval
`[p, p+1)` with value `v`, and `get(p)` then returns `v`. -/
theorem insert_on_empty (p v : Int) (hp : IsInt p) (hmax : p < 2147483647) (_hv : v ≠ 0) :
    (insert_value empty p v).1 = 1 ∧
      (insert_value empty p v).2 = [⟨p, p + 1, v⟩] ∧
      get (insert_value empty p v).2 p = v := by
  have hw := wrapInt_succ hp hmax
  simp [insert_value, empty, mergeNodes, mergeFrom, get, getSeek, hw]

theorem insert_on_empty_witness :
    IsInt 5 ∧ (5 : Int) < 2147483647 ∧ (3 : Int) ≠ 0 ∧ (insert_value empty 5 3).1 = 1 ∧
      (insert_value empty 5 3).2 = [⟨5, 5 + 1, 3⟩] ∧
      get (insert_value empty 5 3).2 5 = 3 :=
  ⟨by decide, by decide, by decide, insert_on_empty 5 3 (by decide) (by decide) (by decide)⟩

/-- C9, at `INT_MAX - 1`. The calls `insert_value(INT_MAX - 1, 3)` and
`insert_value(INT_MAX, 3)` on the empty list do not coalesce: the second node is
`[INT_MAX, INT_MIN)`, it is spliced before the first and two nodes remain. -/
theorem adjacent_equal_at_int_max :
    IsInt 2147483646 ∧ IsInt (2147483646 + 1) ∧ (3 : Int) ≠ 0 ∧
      insertAll empty [(2147483646, 3), (2147483646 + 1, 3)]
        = [⟨2147483647, -2147483648, 3⟩, ⟨2147483646, 2147483647, 3⟩] ∧
      insertAll empty [(2147483646, 3), (2147483646 + 1, 3)]
        ≠ [⟨2147483646, 2147483646 + 2, 3⟩] := by
  decide

/-- C9. Adjacent equal inserts coalesce: for every int position `p` below `INT_MAX - 1`
and non-zero value `v`, `insert_value(p, v)` followed by `insert_value(p+1, v)` on the
empty list yields exactly the interval `[p, p+2)` with value `v`. -/
theorem adjacent_equal_coalesce (p v : Int) (hp : IsInt p) (hmax : p < 2147483646)
    (hv : v ≠ 0) :
    insertAll empty [(p, v), (p + 1, v)] = [⟨p, p + 2, v⟩] := by
  have h2 : p + 1 + 1 = p + 2 := by ring
  have hw1 : wrapInt (p + 1) = p + 1 := wrapInt_succ hp (by omega)
  have hw2 : wrapInt (p + 2) = p + 2 := by
    unfold IsInt at hp
    unfold wrapInt
    omega
  simp [insertAll, insert_value, empty, mergeNodes, mergeFrom, insertLoop, hv, h2, hw1, hw2]

theorem adjacent_equal_coalesce_witness :
    IsInt 5 ∧ (5 : Int) < 2147483646 ∧ (3 : Int) ≠ 0 ∧
      insertAll empty [(5, 3), (5 + 1, 3)] = [⟨5, 5 + 2, 3⟩] :=
  ⟨by decide, by decide, by decide,
    adjacent_equal_coalesce 5 3 (by decide) (by decide) (by decide)⟩

/-- C10, at `INT_MAX`. After `insert_value(INT_MAX, 3)` on the empty list the call
`insert_value(INT_MAX, 0)` does not remove the node: the zero node `[INT_MAX, INT_MIN)` is
spliced before it by S4a and unlinked again, so the chain still holds
`[INT_MAX, INT_MIN)` of value `3` and `get(INT_MAX)` returns `3`. -/
theorem insert_then_delete_at_int_max :
    IsInt 2147483647 ∧ IsInt 3 ∧ (3 : Int) ≠ 0 ∧
      insertAll empty [(2147483647, 3), (2147483647, 0)] = [⟨2147483647, -2147483648, 3⟩] ∧
      insertAll empty [(2147483647, 3), (2147483647, 0)] ≠ [] ∧
      get (insertAll empty [(2147483647, 3), (2147483647, 0)]) 2147483647 = 3 := by
  decide

/-- C10. Insert then delete restores the empty list: for every int position `p` below
`INT_MAX` and non-zero value `v`, `insert_value(p, v)` followed by `insert_value(p, 0)` on
the empty list leaves the chain empty, and `get(p)` then returns `0`. -/
theorem insert_then_delete (p v : Int) (hp : IsInt p) (hmax : p < 2147483647)
    (_hv : v ≠ 0) :
    insertAll empty [(p, v), (p, 0)] = [] ∧
      get (insertAll empty [(p, v), (p, 0)]) p = 0 := by
  have hw := wrapInt_succ hp hmax
  have h : insertAll empty [(p, v), (p, 0)] = [] := by
    simp [insertAll, insert_value, empty, mergeNodes, mergeFrom, insertLoop, hw]
  rw [h]
  exact ⟨rfl, rfl⟩

theorem insert_then_delete_witness :
    IsInt 5 ∧ (5 : Int) < 2147483647 ∧ (3 : Int) ≠ 0 ∧
      insertAll empty [(5, 3), (5, 0)] = [] ∧
      get (insertAll empty [(5, 3), (5, 0)]) 5 = 0 :=
  ⟨by decide, by decide, by decide,
    insert_then_delete 5 3 (by decide) (by decide) (by decide)⟩

/-- C11, at `INT_MAX - 1`. The calls `insert_value(INT_MAX - 1, 3)`,
`insert_value(INT_MAX, 3)`, `insert_value(INT_MAX - 1, 9)` on the empty list leave three
nodes: the wrapped node `[INT_MAX, INT_MIN)` is spliced first and the third call prepends. -/
theorem overwrite_front_at_int_max :
    IsInt 2147483646 ∧ IsInt (2147483646 + 1) ∧ (3 : Int) ≠ 0 ∧ (9 : Int) ≠ 3 ∧
      insertAll empty [(2147483646, 3), (2147483646 + 1, 3), (2147483646, 9)]
        = [⟨2147483646, 2147483647, 9⟩, ⟨2147483647, -2147483648, 3⟩,
            ⟨2147483646, 2147483647, 3⟩] ∧
      insertAll empty [(2147483646, 3), (2147483646 + 1, 3), (2147483646, 9)]
        ≠ [⟨2147483646, 2147483646 + 1, 9⟩, ⟨2147483646 + 1, 2147483646 + 2, 3⟩] := by
  decide

/-- C11. Overwriting the front of a merged run splits it: for every int position `p`
below `INT_MAX - 1` and all values `v ≠ 0` and `w ≠ v`, the calls `insert_value(p, v)`,
`insert_value(p+1, v)`, `insert_value(p, w)` on the empty list leave exactly `[p, p+1)`
with value `w` followed by `[p+1, p+2)` with value `v`. -/
theorem overwrite_front_splits (p v w : Int) (hp : IsInt p) (hmax : p < 2147483646)
    (hv : v ≠ 0) (hw : w ≠ v) :
    insertAll empty [(p, v), (p + 1, v), (p, w)] = [⟨p, p + 1, w⟩, ⟨p + 1, p + 2, v⟩] := by
  have h2 : p + 1 + 1 = p + 2 := by ring
  have hw1 : wrapInt (p + 1) = p + 1 := wrapInt_succ hp (by omega)
  have hw2 : wrapInt (p + 2) = p + 2 := by
    unfold IsInt at hp
    unfold wrapInt
    omega
  simp [insertAll, insert_value, empty, mergeNodes, mergeFrom, insertLoop, hv, hw, h2, hw1,
    hw2]

theorem overwrite_front_splits_witness :
    IsInt 4 ∧ (4 : Int) < 2147483646 ∧ (3 : Int) ≠ 0 ∧ (9 : Int) ≠ 3 ∧
      insertAll empty [(4, 3), (4 + 1, 3), (4, 9)] = [⟨4, 4 + 1, 9⟩, ⟨4 + 1, 4 + 2, 3⟩] :=
  ⟨by decide, by decide, by decide, by decide,
    overwrite_front_splits 4 3 9 (by decide) (by decide) (by decide) (by decide)⟩

/-- C12. `operator*` is not the positional dot product on well-formed chains: with `A` the
interval `[0, 3)` of value `2` and `B` the interval `[1, 2)` of value `5`, branch S2b adds
`(rhs->end - rhs->begin) * current->value` and `A * B` is `2`, while the sum over all
positions `q` of `A[q] * B[q]` is `10`; with both chains the interval `[0, 2)` of value `1`
branch S2a adds `1 * 1` once and the result is `1`, while the sum is `2`. -/
theorem operatorMul_not_dot_product :
    (Invariants [⟨0, 3, 2⟩] ∧ Invariants [⟨1, 2, 5⟩] ∧
      operatorMul [⟨0, 3, 2⟩] [⟨1, 2, 5⟩] = 2 ∧
      ∑ᶠ q : Int, effective [⟨0, 3, 2⟩] q * effective [⟨1, 2, 5⟩] q = 10) ∧
    (Invariants [⟨0, 2, 1⟩] ∧
      operatorMul [⟨0, 2, 1⟩] [⟨0, 2, 1⟩] = 1 ∧
      ∑ᶠ q : Int, effective [⟨0, 2, 1⟩] q * effective [⟨0, 2, 1⟩] q = 2) := by
  have hI : ∀ n : RangeNode, n.begin < n.end_ → n.value ≠ 0 → Invariants [n] := by
    intro n h1 h2
    simp [Invariants, NonEmptyRanges, Ascending, Coalesced, NoZero, h1, h2]
  have hsum : ∀ (f : Int → Int) (lo hi : Int), (∀ q, ¬ (lo ≤ q ∧ q < hi) → f q = 0) →
      ∑ᶠ q : Int, f q = ∑ q ∈ Finset.Ico lo hi, f q := by
    intro f lo hi h
    apply finsum_eq_sum_of_support_subset
    intro q hq
    by_contra hn
    exact hq (h q (by simpa using hn))
  refine ⟨⟨hI _ (by decide) (by decide), hI _ (by decide) (by decide), ?_, ?_⟩,
    hI _ (by decide) (by decide), ?_, ?_⟩
  · simp [operatorMul, operatorMulLoop, wrapInt]
  · rw [hsum _ 1 2]
    · have : Finset.Ico (1 : Int) 2 = {1} := by decide
      rw [this]
      simp [effective_cons, effective_nil]
    · intro q hq
      have : ¬ (1 ≤ q ∧ q < 2) := hq
      simp [effective_cons, effective_nil, this]
  · simp [operatorMul, operatorMulLoop, wrapInt]
  · rw [hsum _ 0 2]
    · have : Finset.Ico (0 : Int) 2 = {0, 1} := by decide
      rw [this]
      simp [effective_cons, effective_nil]
    · intro q hq
      have : ¬ (0 ≤ q ∧ q < 2) := hq
      simp [effective_cons, effective_nil, this]

/-- C13. `operator*` is not commutative on well-formed chains: with `A` the interval
`[0, 3)` of value `2` and `B` the interval `[1, 2)` of value `5`, `A * B` is `2` (branch
S2b) and `B * A` is `10` (branch S2c). -/
theorem operatorMul_not_commutative :
    Invariants [⟨0, 3, 2⟩] ∧ Invariants [⟨1, 2, 5⟩] ∧
      operatorMul [⟨0, 3, 2⟩] [⟨1, 2, 5⟩] = 2 ∧
      operatorMul [⟨1, 2, 5⟩] [⟨0, 3, 2⟩] = 10 ∧
      operatorMul [⟨0, 3, 2⟩] [⟨1, 2, 5⟩] ≠ operatorMul [⟨1, 2, 5⟩] [⟨0, 3, 2⟩] := by
  refine ⟨?_, ?_, ?_, ?_, ?_⟩
  · simp [Invariants, NonEmptyRanges, Ascending, Coalesced, NoZero]
  · simp [Invariants, NonEmptyRanges, Ascending, Coalesced, NoZero]
  · simp [operatorMul, operatorMulLoop, wrapInt]
  · simp [operatorMul, operatorMulLoop, wrapInt]
  · simp [operatorMul, operatorMulLoop, wrapInt]

/-- C15, large values. With `A` and `B` the interval `[5, 6)` of value `100000`, the int
product of S2a overflows and `A * B` is `1410065408`, not `100000 * 100000`. -/
theorem operatorMul_aligned_unit_overflow :
    IntChain [⟨5, 5 + 1, 100000⟩] ∧
      operatorMul [⟨5, 5 + 1, 100000⟩] [⟨5, 5 + 1, 100000⟩] = 1410065408 ∧
      operatorMul [⟨5, 5 + 1, 100000⟩] [⟨5, 5 + 1, 100000⟩] ≠ 100000 * 100000 := by
  have he : operatorMul [⟨5, 5 + 1, 100000⟩] [⟨5, 5 + 1, 100000⟩] = 1410065408 := by
    simp [operatorMul, operatorMulLoop, wrapInt]
  exact ⟨by decide, he, by rw [he]; decide⟩

/-- C15. `operator*` of aligned unit intervals is the product of their values when that
product is an int: with `A` the single interval `[p, p+1)` of value `a` and `B` the single
interval `[p, p+1)` of value `b`, and `a * b` an int, `A * B` is `a * b`. -/
theorem operatorMul_aligned_unit (p a b : Int) (hab : IsInt (a * b)) :
    operatorMul [⟨p, p + 1, a⟩] [⟨p, p + 1, b⟩] = a * b := by
  have h1 : wrapInt (a * b) = a * b := wrapInt_of_isInt hab
  simp [operatorMul, operatorMulLoop, h1]

theorem operatorMul_aligned_unit_witness :
    IsInt (2 * 3) ∧ operatorMul [⟨5, 5 + 1, 2⟩] [⟨5, 5 + 1, 3⟩] = 2 * 3 :=
  ⟨by decide, operatorMul_aligned_unit 5 2 3 (by decide)⟩

/-- C16. Copy construction reproduces the chain as an independent value. If the heap holds
the chain `l` of list `A` at `a`, the copy constructor leaves a heap that holds `l` at the
new head `b` as well as at `a`, so `get(q)` agrees on `A` and `B` for every `q`; and
after any later `insert_value` calls on `A` the heap still holds `l` at `b`, and every
`B.get(q)` is what it was right after the copy. -/
theorem copy_is_independent (h : Heap) (a : Ptr) (l : Chain) (fuel : Nat)
    (hwf : WellFormed h) (hl : Linked h a l) (hfuel : l.length ≤ fuel) :
    Linked (copyCtorH fuel h a).1 (copyCtorH fuel h a).2 l ∧
      Linked (copyCtorH fuel h a).1 a l ∧
      (∀ q : Int, getH fuel (copyCtorH fuel h a).1 (copyCtorH fuel h a).2 q
        = getH fuel (copyCtorH fuel h a).1 a q) ∧
      ∀ (calls : List (Int × Int)) (k : Nat),
        Linked (insertAllH k (copyCtorH fuel h a).1 a calls).1 (copyCtorH fuel h a).2 l ∧
        ∀ q : Int, getH fuel (insertAllH k (copyCtorH fuel h a).1 a calls).1
            (copyCtorH fuel h a).2 q
          = getH fuel (copyCtorH fuel h a).1 (copyCtorH fuel h a).2 q := by
  obtain ⟨k1, k2, k3, k4⟩ := copyCtorH_spec h a l fuel hl hfuel
  have hB : Linked (copyCtorH fuel h a).1 (copyCtorH fuel h a).2 l := by
    rw [k4]; exact linked_headPtr k2
  have hA : Linked (copyCtorH fuel h a).1 a l := linked_of_prefix k3 l a hl
  refine ⟨hB, hA, ?_, ?_⟩
  · intro q
    rw [getH_of_linked q l fuel _ _ hB hfuel, getH_of_linked q l fuel _ _ hA hfuel]
  · intro calls k
    have hg := good_insertAllH k calls _ (frame_after_copy h a l fuel hwf hl hfuel)
    have hB2 : Linked (insertAllH k (copyCtorH fuel h a).1 a calls).1
        (copyCtorH fuel h a).2 l := by
      rw [k4]; exact linked_of_frame hg.1 k2
    refine ⟨hB2, ?_⟩
    intro q
    rw [getH_of_linked q l fuel _ _ hB2 hfuel, getH_of_linked q l fuel _ _ hB hfuel]

theorem copy_is_independent_witness :
    WellFormed [⟨0, 2, 1, some 1⟩, ⟨4, 7, 2, none⟩] ∧
      Linked [⟨0, 2, 1, some 1⟩, ⟨4, 7, 2, none⟩] (some 0) [⟨0, 2, 1⟩, ⟨4, 7, 2⟩] ∧
      ([⟨0, 2, 1⟩, ⟨4, 7, 2⟩] : Chain).length ≤ 2 ∧
      (Linked (copyCtorH 2 [⟨0, 2, 1, some 1⟩, ⟨4, 7, 2, none⟩] (some 0)).1
          (copyCtorH 2 [⟨0, 2, 1, some 1⟩, ⟨4, 7, 2, none⟩] (some 0)).2
          [⟨0, 2, 1⟩, ⟨4, 7, 2⟩] ∧
        Linked (copyCtorH 2 [⟨0, 2, 1, some 1⟩, ⟨4, 7, 2, none⟩] (some 0)).1 (some 0)
          [⟨0, 2, 1⟩, ⟨4, 7, 2⟩] ∧
        (∀ q : Int, getH 2 (copyCtorH 2 [⟨0, 2, 1, some 1⟩, ⟨4, 7, 2, none⟩] (some 0)).1
            (copyCtorH 2 [⟨0, 2, 1, some 1⟩, ⟨4, 7, 2, none⟩] (some 0)).2 q
          = getH 2 (copyCtorH 2 [⟨0, 2, 1, some 1⟩, ⟨4, 7, 2, none⟩] (some 0)).1 (some 0) q) ∧
        ∀ (calls : List (Int × Int)) (k : Nat),
          Linked (insertAllH k (copyCtorH 2 [⟨0, 2, 1, some 1⟩, ⟨4, 7, 2, none⟩] (some 0)).1
              (some 0) calls).1
            (copyCtorH 2 [⟨0, 2, 1, some 1⟩, ⟨4, 7, 2, none⟩] (some 0)).2
            [⟨0, 2, 1⟩, ⟨4, 7, 2⟩] ∧
          ∀ q : Int, getH 2 (insertAllH k
              (copyCtorH 2 [⟨0, 2, 1, some 1⟩, ⟨4, 7, 2, none⟩] (some 0)).1 (some 0) calls).1
              (copyCtorH 2 [⟨0, 2, 1, some 1⟩, ⟨4, 7, 2, none⟩] (some 0)).2 q
            = getH 2 (copyCtorH 2 [⟨0, 2, 1, some 1⟩, ⟨4, 7, 2, none⟩] (some 0)).1
              (copyCtorH 2 [⟨0, 2, 1, some 1⟩, ⟨4, 7, 2, none⟩] (some 0)).2 q) :=
  ⟨by simp [WellFormed], by simp [Linked], by decide,
    copy_is_independent [⟨0, 2, 1, some 1⟩, ⟨4, 7, 2, none⟩] (some 0)
      [⟨0, 2, 1⟩, ⟨4, 7, 2⟩] 2 (by simp [WellFormed]) (by simp [Linked]) (by decide)⟩

/-- C17. Deleting an uncovered position can change the chain: on the empty list, and on the
chain `[10, 11)` of value `1`, position `5` lies in no stored interval, yet
`insert_value(5, 0)` goes through the prepend branch of Step 2 and stores `[5, 6)` with
value `0`. -/
theorem delete_uncovered_prepends_zero :
    (Invariants empty ∧ (∀ n ∈ empty, ¬ covers n 5) ∧
      (insert_value empty 5 0).2 = [⟨5, 6, 0⟩]) ∧
    (Invariants [⟨10, 11, 1⟩] ∧ (∀ n ∈ ([⟨10, 11, 1⟩] : Chain), ¬ covers n 5) ∧
      (insert_value [⟨10, 11, 1⟩] 5 0).2 = [⟨5, 6, 0⟩, ⟨10, 11, 1⟩]) := by
  refine ⟨⟨?_, ?_, ?_⟩, ?_, ?_, ?_⟩
  · simp [Invariants, NonEmptyRanges, Ascending, Coalesced, NoZero, empty]
  · decide
  · decide
  · simp [Invariants, NonEmptyRanges, Ascending, Coalesced, NoZero]
  · decide
  · decide

/-- C18. Deleting a position in the middle of a range leaves three intervals: on the chain
`[0, 3)` of value `1`, `insert_value(1, 0)` takes branch S4f, which keeps the new node, so
the chain becomes `[0, 1)` of value `1`, `[1, 2)` of value `0`, `[2, 3)` of value `1`
instead of the two intervals `[0, 1)` and `[2, 3)`. -/
theorem delete_middle_keeps_zero_node :
    Invariants [⟨0, 3, 1⟩] ∧
      (insert_value [⟨0, 3, 1⟩] 1 0).2 = [⟨0, 1, 1⟩, ⟨1, 2, 0⟩, ⟨2, 3, 1⟩] ∧
      (insert_value [⟨0, 3, 1⟩] 1 0).2 ≠ [⟨0, 1, 1⟩, ⟨2, 3, 1⟩] := by
  refine ⟨?_, ?_, ?_⟩
  · simp [Invariants, NonEmptyRanges, Ascending, Coalesced, NoZero]
  · decide
  · decide

/-- C19. Re-inserting the value a position already has is a no-op: on a chain of ints
satisfying the four structural invariants, if `p` lies in a stored interval of value `v`,
then `insert_value(p, v)` returns a chain with the same sequence of
`(begin, end, value)` triples as before, whichever branch is taken. -/
theorem reinsert_same_value (chain : Chain) (p v : Int) (hint : IntChain chain)
    (hinv : Invariants chain) (hp : ∃ n ∈ chain, covers n p ∧ n.value = v) :
    (insert_value chain p v).2 = chain := by
  obtain ⟨hn, ha, hc, hz⟩ := hinv
  obtain ⟨lo, hs⟩ := SortedFrom.of_invariants chain hn ha
  have hw : wrapInt (p + 1) = p + 1 := by
    obtain ⟨n, hn, hcov, _⟩ := hp
    obtain ⟨hb, he, _⟩ := hint n hn
    unfold covers at hcov
    unfold IsInt at hb he
    exact wrapInt_succ ⟨by omega, by omega⟩ (by omega)
  rw [insert_value_eq]
  show mergeNodes (spliceValue chain p v) = chain
  cases chain with
  | nil =>
    obtain ⟨n, hn, _⟩ := hp
    cases hn
  | cons headNode rest =>
    have hlt : ¬ p < headNode.begin := by
      obtain ⟨n, hn, hcov, _⟩ := hp
      have hs1 : SortedFrom headNode.begin (headNode :: rest) := ⟨le_refl _, hs.2.1, hs.2.2⟩
      have hb := hs1.bounds n hn
      unfold covers at hcov
      omega
    obtain ⟨y, ys, e1, _, e3⟩ := spliceFrom_restores p v (headNode :: rest) true lo hs hc hz hp
    simp only [spliceValue, hw, hlt, if_false, e1, mergeNodes, e3]

theorem reinsert_same_value_witness :
    IntChain [⟨0, 1, 4⟩, ⟨2, 5, 7⟩] ∧ Invariants [⟨0, 1, 4⟩, ⟨2, 5, 7⟩] ∧
      (∃ n ∈ ([⟨0, 1, 4⟩, ⟨2, 5, 7⟩] : Chain), covers n 2 ∧ n.value = 7) ∧
      (insert_value [⟨0, 1, 4⟩, ⟨2, 5, 7⟩] 2 7).2 = [⟨0, 1, 4⟩, ⟨2, 5, 7⟩] :=
  ⟨by decide, by simp [Invariants, NonEmptyRanges, Ascending, Coalesced, NoZero],
    ⟨⟨2, 5, 7⟩, by simp, by decide, rfl⟩,
    reinsert_same_value [⟨0, 1, 4⟩, ⟨2, 5, 7⟩] 2 7 (by decide)
      (by simp [Invariants, NonEmptyRanges, Ascending, Coalesced, NoZero])
      ⟨⟨2, 5, 7⟩, by simp, by decide, rfl⟩⟩

/-- C20. A position strictly inside a stored interval reads as `0`: on a chain whose
intervals all have `begin < end` and whose consecutive intervals satisfy
`i.end ≤ j.begin`, `get(p)` returns `0` for every `p` with `begin < p < end` for some
stored interval. -/
theorem get_strictly_inside (chain : Chain) (p : Int) (hn : NonEmptyRanges chain)
    (ha : Ascending chain) (hp : ∃ n ∈ chain, n.begin < p ∧ p < n.end_) :
    get chain p = 0 := by
  obtain ⟨lo, hs⟩ := SortedFrom.of_invariants chain hn ha
  exact get_inside hs p hp

theorem get_strictly_inside_witness :
    NonEmptyRanges [⟨0, 3, 7⟩, ⟨3, 5, 2⟩] ∧ Ascending [⟨0, 3, 7⟩, ⟨3, 5, 2⟩] ∧
      (∃ n ∈ ([⟨0, 3, 7⟩, ⟨3, 5, 2⟩] : Chain), n.begin < 4 ∧ 4 < n.end_) ∧
      get [⟨0, 3, 7⟩, ⟨3, 5, 2⟩] 4 = 0 :=
  ⟨by decide, by simp [Ascending], ⟨⟨3, 5, 2⟩, by simp, by decide, by decide⟩,
    get_strictly_inside [⟨0, 3, 7⟩, ⟨3, 5, 2⟩] 4 (by decide) (by simp [Ascending])
      ⟨⟨3, 5, 2⟩, by simp, by decide, by decide⟩⟩

/-- C21, overflow. On unit-width chains `operator*` can differ from the sparse dot
product and from the product taken the other way round: with `A` and `B` the interval
`[5, 6)` of value `100000` the int product overflows and `A * B` is `1410065408` while the
sum is `10000000000`; with `A` the interval `[-1073741825, -1073741824)` and `B` the
interval `[1073741825, 1073741826)`, both of value `1`, the guard of S2b overflows and
`A * B` is `2147483647` while `B * A` is `0`. -/
theorem operatorMul_unit_width_overflow :
    (UnitWidth [⟨5, 6, 100000⟩] ∧ StrictBegins [⟨5, 6, 100000⟩] ∧ IntChain [⟨5, 6, 100000⟩] ∧
      operatorMul [⟨5, 6, 100000⟩] [⟨5, 6, 100000⟩] = 1410065408 ∧
      ∑ p ∈ begins [⟨5, 6, 100000⟩] ∩ begins [⟨5, 6, 100000⟩],
        get [⟨5, 6, 100000⟩] p * get [⟨5, 6, 100000⟩] p = 10000000000) ∧
    (UnitWidth [⟨-1073741825, -1073741824, 1⟩] ∧ UnitWidth [⟨1073741825, 1073741826, 1⟩] ∧
      StrictBegins [⟨-1073741825, -1073741824, 1⟩] ∧
      StrictBegins [⟨1073741825, 1073741826, 1⟩] ∧
      IntChain [⟨-1073741825, -1073741824, 1⟩] ∧ IntChain [⟨1073741825, 1073741826, 1⟩] ∧
      operatorMul [⟨-1073741825, -1073741824, 1⟩] [⟨1073741825, 1073741826, 1⟩]
        = 2147483647 ∧
      operatorMul [⟨1073741825, 1073741826, 1⟩] [⟨-1073741825, -1073741824, 1⟩] = 0) := by
  refine ⟨⟨by decide, by decide, by decide, ?_, ?_⟩,
    by decide, by decide, by decide, by decide, by decide, by decide, ?_, ?_⟩
  · simp [operatorMul, operatorMulLoop, wrapInt]
  · simp [begins, get, getSeek]
  · simp [operatorMul, operatorMulLoop, wrapInt]
  · simp [operatorMul, operatorMulLoop, wrapInt]

/-- C21. On unit-width chains `operator*` is the sparse dot product in int arithmetic: if
every interval of `A` and of `B` has `end == begin + 1`, the begins of each chain are
strictly ascending, and the differences `a.end - b.begin` and `b.end - a.begin` are ints
for all intervals `a` of `A` and `b` of `B`, then `A * B` is the sum, over the positions
`p` that are the begin of an interval in both chains, of the value of `A` at `p` times the
value of `B` at `p`, reduced to an int; it is that sum itself when the sum is an int; and
`A * B == B * A`. -/
theorem operatorMul_unit_width (A B : Chain) (hA : UnitWidth A) (hB : UnitWidth B)
    (sA : StrictBegins A) (sB : StrictBegins B)
    (hg : ∀ a ∈ A, ∀ b ∈ B, IsInt (a.end_ - b.begin) ∧ IsInt (b.end_ - a.begin)) :
    operatorMul A B = wrapInt (∑ p ∈ begins A ∩ begins B, get A p * get B p) ∧
      (IsInt (∑ p ∈ begins A ∩ begins B, get A p * get B p) →
        operatorMul A B = ∑ p ∈ begins A ∩ begins B, get A p * get B p) ∧
      operatorMul A B = operatorMul B A := by
  have h0 : IsInt 0 := by decide
  have h1 : operatorMul A B = wrapInt (sparseDot A B) := by
    unfold operatorMul
    rw [operatorMulLoop_unit A B 0 hA hB sA sB (fun a ha b hb => (hg a ha b hb).1) h0,
      zero_add]
  have h2 : operatorMul B A = wrapInt (sparseDot B A) := by
    unfold operatorMul
    rw [operatorMulLoop_unit B A 0 hB hA sB sA (fun b hb a ha => (hg a ha b hb).2) h0,
      zero_add]
  refine ⟨h1, ?_, by rw [h1, h2, sparseDot_comm]⟩
  intro hs
  rw [h1]
  exact wrapInt_of_isInt hs

theorem operatorMul_unit_width_witness :
    UnitWidth [⟨1, 2, 3⟩, ⟨4, 5, 2⟩, ⟨7, 8, 1⟩] ∧ UnitWidth [⟨4, 5, 10⟩, ⟨6, 7, 9⟩, ⟨7, 8, 5⟩] ∧
      StrictBegins [⟨1, 2, 3⟩, ⟨4, 5, 2⟩, ⟨7, 8, 1⟩] ∧
      StrictBegins [⟨4, 5, 10⟩, ⟨6, 7, 9⟩, ⟨7, 8, 5⟩] ∧
      (∀ a ∈ ([⟨1, 2, 3⟩, ⟨4, 5, 2⟩, ⟨7, 8, 1⟩] : Chain),
        ∀ b ∈ ([⟨4, 5, 10⟩, ⟨6, 7, 9⟩, ⟨7, 8, 5⟩] : Chain),
          IsInt (a.end_ - b.begin) ∧ IsInt (b.end_ - a.begin)) ∧
      (operatorMul [⟨1, 2, 3⟩, ⟨4, 5, 2⟩, ⟨7, 8, 1⟩] [⟨4, 5, 10⟩, ⟨6, 7, 9⟩, ⟨7, 8, 5⟩]
          = wrapInt (∑ p ∈ begins [⟨1, 2, 3⟩, ⟨4, 5, 2⟩, ⟨7, 8, 1⟩] ∩
              begins [⟨4, 5, 10⟩, ⟨6, 7, 9⟩, ⟨7, 8, 5⟩],
            get [⟨1, 2, 3⟩, ⟨4, 5, 2⟩, ⟨7, 8, 1⟩] p *
              get [⟨4, 5, 10⟩, ⟨6, 7, 9⟩, ⟨7, 8, 5⟩] p) ∧
        (IsInt (∑ p ∈ begins [⟨1, 2, 3⟩, ⟨4, 5, 2⟩, ⟨7, 8, 1⟩] ∩
              begins [⟨4, 5, 10⟩, ⟨6, 7, 9⟩, ⟨7, 8, 5⟩],
            get [⟨1, 2, 3⟩, ⟨4, 5, 2⟩, ⟨7, 8, 1⟩] p *
              get [⟨4, 5, 10⟩, ⟨6, 7, 9⟩, ⟨7, 8, 5⟩] p) →
          operatorMul [⟨1, 2, 3⟩, ⟨4, 5, 2⟩, ⟨7, 8, 1⟩] [⟨4, 5, 10⟩, ⟨6, 7, 9⟩, ⟨7, 8, 5⟩]
            = ∑ p ∈ begins [⟨1, 2, 3⟩, ⟨4, 5, 2⟩, ⟨7, 8, 1⟩] ∩
                begins [⟨4, 5, 10⟩, ⟨6, 7, 9⟩, ⟨7, 8, 5⟩],
              get [⟨1, 2, 3⟩, ⟨4, 5, 2⟩, ⟨7, 8, 1⟩] p *
                get [⟨4, 5, 10⟩, ⟨6, 7, 9⟩, ⟨7, 8, 5⟩] p) ∧
        operatorMul [⟨1, 2, 3⟩, ⟨4, 5, 2⟩, ⟨7, 8, 1⟩] [⟨4, 5, 10⟩, ⟨6, 7, 9⟩, ⟨7, 8, 5⟩]
          = operatorMul [⟨4, 5, 10⟩, ⟨6, 7, 9⟩, ⟨7, 8, 5⟩] [⟨1, 2, 3⟩, ⟨4, 5, 2⟩, ⟨7, 8, 1⟩]) :=
  ⟨by decide, by decide, by decide, by decide, by decide,
    operatorMul_unit_width [⟨1, 2, 3⟩, ⟨4, 5, 2⟩, ⟨7, 8, 1⟩] [⟨4, 5, 10⟩, ⟨6, 7, 9⟩, ⟨7, 8, 5⟩]
      (by decide) (by decide) (by decide) (by decide) (by decide)⟩

end RangeList
